import Mathlib

/-!
# Shallow embedding of the mihomo-rs control-plane SDK

This file embeds the parts of the `mihomo-rs` sources that the verified
claims are about, and proves (or refutes) each claim against the embedding.

Modelling conventions:
* Rust `String`/`&str` values are modelled as `List Char`.  Domain names,
  rule payloads and proxy names in this code base are ASCII, where Rust's
  byte length, character count, `to_lowercase` and `to_ascii_lowercase`
  all coincide with the straightforward character-wise model used here.
* Machine integers (`u8`, `u16`, `u32`) are modelled as `Nat` with explicit
  bounds and explicit `% 2^w` where the Rust code can wrap.
* Fallible Rust functions returning `Result<T, MihomoError>` are modelled
  as `Except MihomoError T`.
* `HashMap` caches are modelled as association lists with unique keys; the
  nondeterministic iteration order of a `HashMap` is modelled by passing
  the iteration sequence explicitly as a list.
* Network and file-system effects are modelled by passing the outcome of
  the effect (for instance the result of an HTTP PUT) as an explicit
  argument, so that the pure control flow around the effect is captured.
-/

namespace MihomoRS

/-- Characters of a Lean string, the `List Char` view used throughout. -/
def chars (s : String) : List Char := s.data

/-! ## `src/error.rs`: the error model -/

/-- `MihomoError` from `src/error.rs`.  Variants that wrap foreign error
types (`reqwest::Error`, `serde_json::Error`, …) carry their rendered
message here. -/
inductive MihomoError where
  | Http (msg : List Char)
  | Json (msg : List Char)
  | Yaml (msg : List Char)
  | UrlParse (msg : List Char)
  | AddrParse (msg : List Char)
  | Config (msg : List Char)
  | Proxy (msg : List Char)
  | Rules (msg : List Char)
  | Auth (msg : List Char)
  | Network (msg : List Char)
  | ServiceUnavailable (msg : List Char)
  | Timeout (msg : List Char)
  | InvalidParameter (msg : List Char)
  | NotFound (msg : List Char)
  | Internal (msg : List Char)
  | ServiceError (msg : List Char)
  | DownloadError (msg : List Char)
  | VersionNotFound (msg : List Char)
  | UnsupportedPlatform (msg : List Char)
  | IoError (msg : List Char)
  | Other (msg : List Char)
deriving DecidableEq, Repr

/-- `ErrorCategory` from `src/error.rs`. -/
inductive ErrorCategory where
  | Network
  | Configuration
  | Authentication
  | Service
  | DataProcessing
  | System
  | UserInput
  | Internal
deriving DecidableEq, Repr

/-- `MihomoError::category` from `src/error.rs`. -/
def MihomoError.category : MihomoError → ErrorCategory
  | .Http _ | .Network _ | .Timeout _ => .Network
  | .Config _ => .Configuration
  | .Auth _ => .Authentication
  | .ServiceError _ | .ServiceUnavailable _ => .Service
  | .Json _ | .Yaml _ => .DataProcessing
  | .UrlParse _ | .AddrParse _ | .InvalidParameter _ => .UserInput
  | .IoError _ => .System
  | _ => .Internal

/-- `MihomoError::is_retryable` from `src/error.rs`. -/
def MihomoError.is_retryable : MihomoError → Bool
  | .Http _ | .Network _ | .Timeout _ | .ServiceUnavailable _ => true
  | .Auth _ | .InvalidParameter _ | .NotFound _ => false
  | _ => false

/-- `true` iff the error is the `Auth` variant (helper used to state
claims about error kinds). -/
def MihomoError.isAuthKind : MihomoError → Bool
  | .Auth _ => true
  | _ => false

/-- `true` iff the error is the `Network` variant. -/
def MihomoError.isNetworkKind : MihomoError → Bool
  | .Network _ => true
  | _ => false

/-- `true` iff the error is the `NotFound` variant. -/
def MihomoError.isNotFoundKind : MihomoError → Bool
  | .NotFound _ => true
  | _ => false

/-- `true` iff the error is the `ServiceUnavailable` variant. -/
def MihomoError.isServiceUnavailableKind : MihomoError → Bool
  | .ServiceUnavailable _ => true
  | _ => false

/-! ## `src/retry.rs`: the retry executor

`RetryExecutor::execute` runs `operation()` inside
`for attempt in 0..max_attempts`.  The operation is modelled as a function
from the attempt index to its outcome; the model returns the final result
together with the number of invocations that were made.  The backoff
sleeps do not influence the result and are not modelled. -/

/-- Loop body of `RetryExecutor::execute` (`src/retry.rs`).  `remaining`
counts the loop iterations that are still allowed; the attempt index is
recovered as `maxAttempts - remaining`.  The fall-out-of-loop branch
(reachable only when `max_attempts == 0`) returns
`last_error.unwrap_or(internal)` where `last_error` is necessarily absent. -/
def executeGo {α : Type} (op : Nat → Except MihomoError α) (maxAttempts : Nat) :
    Nat → Except MihomoError α × Nat
  | 0 => (.error (.Internal (chars "重试执行器内部错误")), 0)
  | remaining + 1 =>
    let attempt := maxAttempts - (remaining + 1)
    match op attempt with
    | .ok v => (.ok v, 1)
    | .error e =>
      if e.is_retryable = false then (.error e, 1)
      else if attempt = maxAttempts - 1 then (.error e, 1)
      else
        let r := executeGo op maxAttempts remaining
        (r.1, r.2 + 1)

/-- `RetryExecutor::execute` from `src/retry.rs`: the result together with
how many times the operation was invoked. -/
def RetryExecutor.execute {α : Type} (op : Nat → Except MihomoError α)
    (maxAttempts : Nat) : Except MihomoError α × Nat :=
  executeGo op maxAttempts maxAttempts

/-! ## `src/client.rs`: response handling of `MihomoClient::get` -/

/-- `reqwest::StatusCode::is_success`: the 2xx range. -/
def isSuccessStatus (status : Nat) : Bool :=
  decide (200 ≤ status ∧ status < 300)

/-- The error built by `MihomoClient::get` for a non-2xx response
(`src/client.rs`): always `MihomoError::network` with the status and the
response text in the message. -/
def responseError (status : Nat) (text : List Char) : MihomoError :=
  .Network (chars "API请求失败: " ++ (Nat.repr status).data ++ chars " - " ++ text)

/-- Response handling of `MihomoClient::get` (`src/client.rs`): on a 2xx
status the body is parsed (an empty body parses as `{}`), otherwise the
`Network` error above is returned.  `parse` stands for
`serde_json::from_str`. -/
def clientGetResult {α : Type} (status : Nat) (text : List Char)
    (parse : List Char → Except MihomoError α) : Except MihomoError α :=
  if isSuccessStatus status then
    if text = [] then parse (chars "{}") else parse text
  else
    .error (responseError status text)

/-! ## String primitives used by `src/rules.rs` -/

/-- Character-wise ASCII lowercasing, the model of `str::to_lowercase`
(and of the per-character comparison done by `eq_ignore_ascii_case`).
The rule engine only ever lowercases host names and rule payloads, which
are ASCII, where this model is exact. -/
def rustToLower (s : List Char) : List Char := s.map Char.toLower

/-- `str::eq_ignore_ascii_case`. -/
def eqIgnoreAsciiCase (a b : List Char) : Bool :=
  decide (rustToLower a = rustToLower b)

/-- `str::ends_with`. -/
def listEndsWith (l s : List Char) : Bool :=
  decide (s.length ≤ l.length) && decide (l.drop (l.length - s.length) = s)

/-- `str::starts_with` (helper for the substring test). -/
def listStartsWith (l s : List Char) : Bool := decide (l.take s.length = s)

/-- `str::contains(&str)`: some position of `l` starts with `sub`. -/
def listContainsSub (sub : List Char) : List Char → Bool
  | [] => listStartsWith [] sub
  | c :: xs => listStartsWith (c :: xs) sub || listContainsSub sub xs

/-- `str::contains(char)`. -/
def hasChar (s : List Char) (c : Char) : Bool := decide (c ∈ s)

/-- `str::split(char)` collected into a list: `"a,,b"` splits into
`["a", "", "b"]` and the empty string splits into `[""]`. -/
def rustSplit (sep : Char) : List Char → List (List Char)
  | [] => [[]]
  | c :: rest =>
    if c = sep then [] :: rustSplit sep rest
    else
      match rustSplit sep rest with
      | h :: t => (c :: h) :: t
      | [] => [[c]]

/-- `str::trim`. -/
def rustTrim (s : List Char) : List Char :=
  ((s.dropWhile Char.isWhitespace).reverse.dropWhile Char.isWhitespace).reverse

/-- Value of a decimal digit character. -/
def decDigitVal (c : Char) : Nat := c.toNat - 48

/-- A non-empty all-decimal-digit string evaluated in base 10. -/
def parseDigits (s : List Char) : Option Nat :=
  if s = [] then none
  else if s.all Char.isDigit then
    some (s.foldl (fun a c => a * 10 + decDigitVal c) 0)
  else none

/-- The sign-and-digits core of Rust unsigned integer parsing: an optional
leading `+`, then one or more decimal digits. -/
def rustParseUnsigned (s : List Char) : Option Nat :=
  match s with
  | c :: rest => if c = '+' then parseDigits rest else parseDigits (c :: rest)
  | [] => parseDigits []

/-- `str::parse::<u16>`: Rust reports overflow as a parse error, modelled
by the final bound check (the accumulated value only grows, so checking
the final value is equivalent to checked accumulation). -/
def rustParseU16 (s : List Char) : Option Nat :=
  match rustParseUnsigned s with
  | some v => if v ≤ 65535 then some v else none
  | none => none

/-- `str::parse::<u8>`. -/
def rustParseU8 (s : List Char) : Option Nat :=
  match rustParseUnsigned s with
  | some v => if v ≤ 255 then some v else none
  | none => none

/-! ## IP addresses

`std::net::IpAddr` and its textual parser are standard-library externals;
they are modelled here in the standard textual forms the engine emits:
dotted-quad IPv4 (1–3 digits per octet, no leading zeros), and IPv6 as
colon-separated hexadecimal groups with at most one `::` abbreviation
(the trailing embedded-IPv4 form is not modelled). -/

/-- `IpAddr`: an IPv4 address as its four octets, or an IPv6 address as
its sixteen bytes (`Ipv6Addr::octets`). -/
inductive IpAddr where
  | v4 (a b c d : Nat)
  | v6 (bytes : List Nat)
deriving DecidableEq, Repr

/-- Well-formedness of the numeric fields of an address. -/
def IpAddr.wf : IpAddr → Prop
  | .v4 a b c d => a < 256 ∧ b < 256 ∧ c < 256 ∧ d < 256
  | .v6 bytes => bytes.length = 16 ∧ ∀ x ∈ bytes, x < 256

/-- One dotted-quad octet: 1–3 decimal digits, no leading zero, value at
most 255. -/
def parseOctet (s : List Char) : Option Nat :=
  if s = [] then none
  else if ¬ s.all Char.isDigit then none
  else if 3 < s.length then none
  else if 1 < s.length ∧ s.head? = some '0' then none
  else
    let v := s.foldl (fun a c => a * 10 + decDigitVal c) 0
    if v ≤ 255 then some v else none

/-- Textual IPv4: exactly four dot-separated octets. -/
def parseIpv4 (s : List Char) : Option IpAddr :=
  match rustSplit '.' s with
  | [a, b, c, d] =>
    match parseOctet a, parseOctet b, parseOctet c, parseOctet d with
    | some x, some y, some z, some w => some (.v4 x y z w)
    | _, _, _, _ => none
  | _ => none

/-- Value of a hexadecimal digit character, if it is one. -/
def hexDigitVal (c : Char) : Option Nat :=
  if c.isDigit then some (c.toNat - 48)
  else if 'a' ≤ c ∧ c ≤ 'f' then some (c.toNat - 87)
  else if 'A' ≤ c ∧ c ≤ 'F' then some (c.toNat - 55)
  else none

/-- Accumulate hexadecimal digits. -/
def parseHexGo : List Char → Nat → Option Nat
  | [], acc => some acc
  | c :: rest, acc =>
    match hexDigitVal c with
    | some d => parseHexGo rest (acc * 16 + d)
    | none => none

/-- One IPv6 group: 1–4 hexadecimal digits. -/
def parseHextet (s : List Char) : Option Nat :=
  if s = [] then none
  else if 4 < s.length then none
  else parseHexGo s 0

/-- A (possibly empty) colon-separated sequence of hextets. -/
def parseHextetList (s : List Char) : Option (List Nat) :=
  if s = [] then some []
  else (rustSplit ':' s).mapM parseHextet

/-- Split a string at its first `::`, if any. -/
def findDoubleColon : List Char → Option (List Char × List Char)
  | [] => none
  | [_] => none
  | a :: b :: rest =>
    if a = ':' ∧ b = ':' then some ([], rest)
    else
      match findDoubleColon (b :: rest) with
      | some (l, r) => some (a :: l, r)
      | none => none

/-- Textual IPv6 as eight 16-bit groups, expanding a single `::`. -/
def parseIpv6Groups (s : List Char) : Option (List Nat) :=
  match findDoubleColon s with
  | some (l, r) =>
    if (findDoubleColon r).isSome then none
    else
      match parseHextetList l, parseHextetList r with
      | some ls, some rs =>
        if ls.length + rs.length ≤ 7 then
          some (ls ++ List.replicate (8 - ls.length - rs.length) 0 ++ rs)
        else none
      | _, _ => none
  | none =>
    match parseHextetList s with
    | some gs => if gs.length = 8 then some gs else none
    | none => none

/-- `Ipv6Addr::octets`: big-endian bytes of the eight groups.  The
`% 256` reductions are no-ops for parser outputs (each group fits in 16
bits) and make the byte bounds hold by construction. -/
def hextetsToBytes : List Nat → List Nat
  | [] => []
  | h :: t => h / 256 % 256 :: h % 256 :: hextetsToBytes t

/-- `IpAddr::from_str`: IPv4 first, then IPv6. -/
def parseIpAddr (s : List Char) : Option IpAddr :=
  match parseIpv4 s with
  | some ip => some ip
  | none => (parseIpv6Groups s).map (fun gs => .v6 (hextetsToBytes gs))

/-- `u32::from(Ipv4Addr)`: the big-endian 32-bit value of the octets. -/
def u32OfV4 (a b c d : Nat) : Nat := ((a * 256 + b) * 256 + c) * 256 + d

/-- `!0u32 << (32 - prefix_len)` guarded by `prefix_len == 0 → 0`
(`src/rules.rs`), with the `u32` wrap made explicit. -/
def rustU32Mask (p : Nat) : Nat :=
  if p = 0 then 0 else ((2 ^ 32 - 1) <<< (32 - p)) % 2 ^ 32

/-- `!0u8 << (8 - remaining_bits)` (`src/rules.rs`), with the `u8` wrap
made explicit. -/
def rustU8Mask (r : Nat) : Nat := ((2 ^ 8 - 1) <<< (8 - r)) % 2 ^ 8

/-! ## `src/rules.rs`: the rule engine -/

/-- `RuleType` from `src/types.rs`. -/
inductive RuleType where
  | Domain
  | DomainSuffix
  | DomainKeyword
  | Geoip
  | IpCidr
  | SrcIpCidr
  | SrcPort
  | DstPort
  | ProcessName
  | ProcessPath
  | Script
  | RuleSet
  | Match
deriving DecidableEq, Repr

/-- `Rule` from `src/types.rs`. -/
structure Rule where
  rule_type : RuleType
  payload : List Char
  proxy : List Char
  size : Int
deriving DecidableEq, Repr

/-- `RuleEngine::match_domain`. -/
def match_domain (payload target : List Char) : Bool :=
  eqIgnoreAsciiCase payload target

/-- `RuleEngine::match_domain_suffix`: lowercased suffix test, then either
equal lengths or a `.` at the character position just before the suffix. -/
def match_domain_suffix (payload target : List Char) : Bool :=
  listEndsWith (rustToLower target) (rustToLower payload) &&
    (decide (target.length = payload.length) ||
      decide (target.get? (target.length - payload.length - 1) = some '.'))

/-- `RuleEngine::match_domain_keyword`. -/
def match_domain_keyword (payload target : List Char) : Bool :=
  listContainsSub (rustToLower payload) (rustToLower target)

/-- `RuleEngine::match_dst_port`: a payload containing `-` is an inclusive
range, a payload containing `,` is a list of single ports (each trimmed),
otherwise a single port; malformed pieces fall through to `false`. -/
def match_dst_port (payload : List Char) (port : Option Nat) : Bool :=
  match port with
  | none => false
  | some targetPort =>
    if hasChar payload '-' then
      match rustSplit '-' payload with
      | [a, b] =>
        match rustParseU16 a, rustParseU16 b with
        | some s, some e => decide (s ≤ targetPort) && decide (targetPort ≤ e)
        | _, _ => false
      | _ => false
    else if hasChar payload ',' then
      (rustSplit ',' payload).any
        (fun piece => rustParseU16 (rustTrim piece) == some targetPort)
    else
      match rustParseU16 payload with
      | some rulePort => decide (targetPort = rulePort)
      | none => false

/-- `RuleEngine::is_ip_in_cidr`: split the CIDR at `/`, parse the network
address and the `u8` prefix length, then compare masked values — as a
`u32` mask for IPv4, and byte-wise (whole bytes, then a partial-byte mask)
for IPv6.  Families that differ never match. -/
def is_ip_in_cidr (ip : IpAddr) (cidr : List Char) : Except MihomoError Bool :=
  match rustSplit '/' cidr with
  | [ipStr, prefStr] =>
    match parseIpAddr ipStr with
    | none => .error (.Rules (chars "Invalid IP in CIDR: " ++ ipStr))
    | some networkIp =>
      match rustParseU8 prefStr with
      | none => .error (.Rules (chars "Invalid prefix length: " ++ prefStr))
      | some prefixLen =>
        match ip, networkIp with
        | .v4 a b c d, .v4 e f g h =>
          if 32 < prefixLen then
            .error (.Rules (chars "IPv4 prefix length cannot exceed 32"))
          else
            let mask := rustU32Mask prefixLen
            .ok (decide ((u32OfV4 a b c d &&& mask) = (u32OfV4 e f g h &&& mask)))
        | .v6 ipB, .v6 netB =>
          if 128 < prefixLen then
            .error (.Rules (chars "IPv6 prefix length cannot exceed 128"))
          else
            let fullBytes := prefixLen / 8
            let remainingBits := prefixLen % 8
            if ¬ ipB.take fullBytes = netB.take fullBytes then .ok false
            else if 0 < remainingBits ∧ fullBytes < 16 then
              let mask := rustU8Mask remainingBits
              if ¬ (ipB.getD fullBytes 0 &&& mask) = (netB.getD fullBytes 0 &&& mask) then
                .ok false
              else .ok true
            else .ok true
        | _, _ => .ok false
  | _ => .error (.Rules (chars "Invalid CIDR format: " ++ cidr))

/-- `RuleEngine::match_ip_cidr`: a host that does not parse as an IP never
matches. -/
def match_ip_cidr (payload target : List Char) : Except MihomoError Bool :=
  match parseIpAddr target with
  | some targetIp => is_ip_in_cidr targetIp payload
  | none => .ok false

/-- `RuleEngine::is_rule_match`: dispatch on the rule kind.  `Geoip` and
the kinds requiring source/process information are unimplemented in the
source and never match. -/
def is_rule_match (rule : Rule) (target : List Char) (port : Option Nat) :
    Except MihomoError Bool :=
  match rule.rule_type with
  | .Domain => .ok (match_domain rule.payload target)
  | .DomainSuffix => .ok (match_domain_suffix rule.payload target)
  | .DomainKeyword => .ok (match_domain_keyword rule.payload target)
  | .Geoip => .ok false
  | .IpCidr => match_ip_cidr rule.payload target
  | .SrcIpCidr => .ok false
  | .SrcPort => .ok false
  | .DstPort => .ok (match_dst_port rule.payload port)
  | .ProcessName => .ok false
  | .ProcessPath => .ok false
  | .Script => .ok false
  | .RuleSet => .ok false
  | .Match => .ok true

/-- `RuleEngine::match_rule`: walk the cached list in order, propagating
any predicate error with `?`, and return the first rule that matches
together with its target proxy. -/
def match_rule (rules : List Rule) (target : List Char) (port : Option Nat) :
    Except MihomoError (Option (Rule × List Char)) :=
  match rules with
  | [] => .ok none
  | r :: rest =>
    match is_rule_match r target port with
    | .error e => .error e
    | .ok true => .ok (some (r, r.proxy))
    | .ok false => match_rule rest target port

/-! ## `src/proxy.rs`: the proxy manager

`ProxyManager` keeps a `HashMap<String, ProxyGroup>` cache.  The cache is
modelled as an association list with unique keys.  `switch_proxy` and
`auto_select_fastest_proxy` run after `ensure_cache`, so the cache passed
to the models below is the (already refreshed) snapshot those functions
validate against; the HTTP PUT issued by `client.switch_proxy` is modelled
by its outcome `putResult`, plus a flag recording whether it was reached. -/

/-- `DelayHistory` from `src/types.rs` (`delay` is a `u32` of
milliseconds). -/
structure DelayHistory where
  delay : Nat
  time : Option (List Char)
deriving DecidableEq, Repr

/-- The fields of `ProxyGroup` (`src/types.rs`) read or written by
`switch_proxy` and `auto_select_fastest_proxy`; the remaining fields are
never touched by those operations and are omitted. -/
structure ProxyGroup where
  name : List Char
  now : List Char
  all : List (List Char)
deriving DecidableEq, Repr

/-- The group cache (`HashMap<String, ProxyGroup>` as an association list
with unique keys). -/
abbrev GroupCache : Type := List (List Char × ProxyGroup)

/-- `HashMap::get` / `contains_key` on the modelled cache. -/
def cacheGet : GroupCache → List Char → Option ProxyGroup
  | [], _ => none
  | (k, g) :: rest, key => if k = key then some g else cacheGet rest key

/-- `HashMap::get_mut` followed by a field update on the modelled cache. -/
def cacheUpdate (f : ProxyGroup → ProxyGroup) : GroupCache → List Char → GroupCache
  | [], _ => []
  | (k, g) :: rest, key =>
    if k = key then (k, f g) :: rest else (k, g) :: cacheUpdate f rest key

/-- Outcome of `ProxyManager::switch_proxy`: the returned result, whether
the HTTP PUT was issued, and the group cache afterwards. -/
structure SwitchOutcome where
  result : Except MihomoError Unit
  httpIssued : Bool
  cache : GroupCache

/-- `ProxyManager::switch_proxy` (`src/proxy.rs`): validate that the group
exists in the cache and that the node is a member of its `all` list —
failing with a `Proxy` error before the PUT — then issue the PUT and, only
on its success, update the cached group's `now`. -/
def switch_proxy (cache : GroupCache) (group_name proxy_name : List Char)
    (putResult : Except MihomoError Unit) : SwitchOutcome :=
  match cacheGet cache group_name with
  | none =>
    ⟨.error (.Proxy (chars "Proxy group " ++ group_name ++ chars " not found")),
      false, cache⟩
  | some group =>
    if proxy_name ∈ group.all then
      match putResult with
      | .error e => ⟨.error e, true, cache⟩
      | .ok _ =>
        ⟨.ok (), true, cacheUpdate (fun g => { g with now := proxy_name }) cache group_name⟩
    else
      ⟨.error (.Proxy (chars "Proxy " ++ proxy_name ++ chars " not found in group " ++ group_name)),
        false, cache⟩

/-- The fold of `auto_select_fastest_proxy` over the delay-test results:
keep the first successful result, then replace it whenever a strictly
smaller delay appears. -/
def selectBestGo (best : Option (List Char × DelayHistory)) :
    List (List Char × Except MihomoError DelayHistory) →
    Option (List Char × DelayHistory)
  | [] => best
  | (name, res) :: rest =>
    match res with
    | .ok dh =>
      match best with
      | some (_, cur) =>
        if dh.delay < cur.delay then selectBestGo (some (name, dh)) rest
        else selectBestGo best rest
      | none => selectBestGo (some (name, dh)) rest
    | .error _ => selectBestGo best rest

/-- The `best_proxy` computation of `auto_select_fastest_proxy` over the
iteration sequence of the results map. -/
def selectBest (results : List (List Char × Except MihomoError DelayHistory)) :
    Option (List Char × DelayHistory) :=
  selectBestGo none results

/-- `ProxyManager::auto_select_fastest_proxy` (`src/proxy.rs`).
`delayResults` is the iteration sequence of the `HashMap` produced by
`test_multiple_proxy_delays(&group.all, …)` — a `HashMap` iterates in an
unspecified order, so the order of this list is arbitrary.  Returns the
function's result together with the group cache afterwards. -/
def auto_select_fastest_proxy (cache : GroupCache) (group_name : List Char)
    (delayResults : List (List Char × Except MihomoError DelayHistory))
    (putResult : Except MihomoError Unit) :
    Except MihomoError (List Char × DelayHistory) × GroupCache :=
  match cacheGet cache group_name with
  | none =>
    (.error (.Proxy (chars "Proxy group " ++ group_name ++ chars " not found")), cache)
  | some group =>
    if group.all = [] then
      (.error (.Proxy (chars "Proxy group " ++ group_name ++ chars " is empty")), cache)
    else
      match selectBest delayResults with
      | none => (.error (.Proxy (chars "No available proxy found")), cache)
      | some (bestName, bestDelay) =>
        let sw := switch_proxy cache group_name bestName putResult
        match sw.result with
        | .error e => (.error e, sw.cache)
        | .ok _ => (.ok (bestName, bestDelay), sw.cache)

/-! ## `src/service.rs`: platform detection and asset selection of
`ServiceManager::download_version`

Only the pure asset-selection prefix of the function is modelled (the
actual download, decompression and file writes that follow are I/O).
`os` and `arch` are the values of `std::env::consts::OS` and
`std::env::consts::ARCH` on the host. -/

/-- The `match (os, arch)` table of `ServiceManager::download_version`:
the release platform tag and archive extension for the host, or `none`
for any other host. -/
def download_platform (os arch : List Char) : Option (List Char × List Char) :=
  if os = chars "macos" ∧ arch = chars "aarch64" then some (chars "darwin-arm64", chars ".gz")
  else if os = chars "macos" ∧ arch = chars "x86_64" then some (chars "darwin-amd64", chars ".gz")
  else if os = chars "linux" ∧ arch = chars "aarch64" then some (chars "linux-arm64", chars ".gz")
  else if os = chars "linux" ∧ arch = chars "x86_64" then some (chars "linux-amd64", chars ".gz")
  else if os = chars "windows" ∧ arch = chars "x86_64" then some (chars "windows-amd64", chars ".zip")
  else none

/-- The release asset filename `mihomo-{platform}-{version}{extension}`
built by `download_version`. -/
def assetName (platform version ext : List Char) : List Char :=
  chars "mihomo-" ++ platform ++ chars "-" ++ version ++ ext

/-- `HashMap::get` on the `download_urls` map of a `VersionInfo`. -/
def lookupUrl : List (List Char × List Char) → List Char → Option (List Char)
  | [], _ => none
  | (k, u) :: rest, key => if k = key then some u else lookupUrl rest key

/-- Asset selection of `ServiceManager::download_version`
(`src/service.rs`): an unsupported `(os, arch)` pair fails with
`UnsupportedPlatform`; a supported pair whose asset is absent from the
release fails with `VersionNotFound`; otherwise the asset's download URL
is selected. -/
def selectAssetUrl (os arch version : List Char)
    (downloadUrls : List (List Char × List Char)) : Except MihomoError (List Char) :=
  match download_platform os arch with
  | none => .error (.UnsupportedPlatform (os ++ '-' :: arch))
  | some (platform, ext) =>
    match lookupUrl downloadUrls (assetName platform version ext) with
    | some url => .ok url
    | none =>
      .error (.VersionNotFound (chars "版本 " ++ version ++ chars " 不支持当前平台 " ++ platform))

/-! ## Specification-side helper definitions

These express the specification's view of the computations (big-endian
numeric values, the spec's port-list syntax) for stating the claims; they
are compared against the code-derived definitions above by theorems. -/

/-- Big-endian numeric value of a byte string: the `u128` view of the
sixteen IPv6 octets used by the specification. -/
def bytesToNat : List Nat → Nat
  | [] => 0
  | b :: bs => b * 256 ^ bs.length + bytesToNat bs

/-- Byte-string prefix equality as a structural recursion: the first `p`
bits of two byte strings agree (whole leading bytes, then a masked
partial byte).  Intermediate form used to relate the byte-wise IPv6
comparison of `is_ip_in_cidr` to the `u128` view. -/
def prefixBitsEq : List Nat → List Nat → Nat → Bool
  | _, _, 0 => true
  | x :: xs, y :: ys, p + 1 =>
    if 8 ≤ p + 1 then decide (x = y) && prefixBitsEq xs ys (p + 1 - 8)
    else
      decide ((x &&& (2 ^ 8 - 2 ^ (8 - (p + 1)))) = (y &&& (2 ^ 8 - 2 ^ (8 - (p + 1)))))
  | [], _, _ + 1 => true
  | _ :: _, [], _ + 1 => true

/-- The combined boolean computed by the IPv6 arm of `is_ip_in_cidr`
(whole-byte slice comparison, then the optional partial-byte mask). -/
def v6CodeMatch (ipB netB : List Nat) (p : Nat) : Bool :=
  decide (ipB.take (p / 8) = netB.take (p / 8)) &&
    (if 0 < p % 8 ∧ p / 8 < 16 then
      decide ((ipB.getD (p / 8) 0 &&& rustU8Mask (p % 8)) =
        (netB.getD (p / 8) 0 &&& rustU8Mask (p % 8)))
    else true)

/-- Comma-separated concatenation: the syntactic shape of a DST-PORT
list payload. -/
def joinWithComma : List (List Char) → List Char
  | [] => []
  | [x] => x
  | x :: y :: rest => x ++ ',' :: joinWithComma (y :: rest)

/-! # Theorems -/

/-! ## Generic helper lemmas -/

/-- Retry loop, all attempts in range fail retryably: the loop consumes
all remaining attempts and surfaces the error of the last one. -/
theorem executeGo_all_err {α : Type} (op : Nat → Except MihomoError α) (N : Nat)
    (e : MihomoError) :
    ∀ R, 1 ≤ R → R ≤ N →
      (∀ i, N - R ≤ i → i < N → ∃ e', op i = .error e' ∧ e'.is_retryable = true) →
      op (N - 1) = .error e →
      executeGo op N R = (.error e, R) := by
  intro R
  induction R with
  | zero => intro h; omega
  | succ R ih =>
    intro _ hRN hall hlast
    obtain ⟨e', he', hr'⟩ := hall (N - (R + 1)) (le_refl _) (by omega)
    by_cases hR : R = 0
    · subst hR
      have hatt : N - 1 = N - (0 + 1) := by omega
      rw [hatt] at hlast
      rw [hlast] at he'
      simp only [executeGo, hlast, hr']
      simp
    · simp only [executeGo, he', hr']
      have hne : ¬ (N - (R + 1) = N - 1) := by omega
      simp only [if_neg hne]
      simp only [show (true = false) = False by simp, if_false]
      rw [ih (by omega) (by omega) (fun i hi hi2 => hall i (by omega) hi2) hlast]

/-- Retry loop, the first `k` attempts in range fail retryably and
attempt `k` terminates the loop (success or a non-retryable error):
the loop makes exactly `k - (N - R) + 1` further invocations. -/
theorem executeGo_stop {α : Type} (op : Nat → Except MihomoError α) (N : Nat) :
    ∀ R k, R ≤ N → k < N → N - R ≤ k →
      (∀ i, N - R ≤ i → i < k → ∃ e', op i = .error e' ∧ e'.is_retryable = true) →
      (∀ v : α, op k = .ok v → executeGo op N R = (.ok v, k - (N - R) + 1)) ∧
      (∀ e, op k = .error e → e.is_retryable = false →
        executeGo op N R = (.error e, k - (N - R) + 1)) := by
  intro R
  induction R with
  | zero => intro k _ hk hNk; omega
  | succ R ih =>
    intro k hRN hk hNk hall
    by_cases hak : N - (R + 1) = k
    · constructor
      · intro v hv
        simp only [executeGo, hak, hv]
        simp
      · intro e he hre
        simp only [executeGo, hak, he, hre]
        simp
    · have hlt : N - (R + 1) < k := by omega
      obtain ⟨e', he', hr'⟩ := hall (N - (R + 1)) (le_refl _) hlt
      have step : ∀ r : Except MihomoError α × Nat,
          executeGo op N R = r →
          executeGo op N (R + 1) = (r.1, r.2 + 1) := by
        intro r hr
        simp only [executeGo, he', hr']
        have hne : ¬ (N - (R + 1) = N - 1) := by omega
        simp only [if_neg hne]
        simp only [show (true = false) = False by simp, if_false]
        rw [hr]
      have hrec := ih k (by omega) hk (by omega)
        (fun i hi hi2 => hall i (by omega) hi2)
      constructor
      · intro v hv
        have := step _ (hrec.1 v hv)
        rw [this]
        simp only []
        congr 1
        omega
      · intro e he hre
        have := step _ (hrec.2 e he hre)
        rw [this]
        simp only []
        congr 1
        omega

/-- Reading back the key just updated in the cache. -/
theorem cacheGet_cacheUpdate (f : ProxyGroup → ProxyGroup) :
    ∀ (c : GroupCache) (k : List Char),
      cacheGet (cacheUpdate f c k) k = (cacheGet c k).map f := by
  intro c k
  induction c with
  | nil => rfl
  | cons hd tl ih =>
    obtain ⟨k1, g1⟩ := hd
    by_cases h : k1 = k
    · simp [cacheUpdate, cacheGet, h]
    · simp [cacheUpdate, cacheGet, h, ih]

/-! ## Claim C3: the retry executor -/

/-- Claim C3 (confirmed).  For every operation run by the retry executor
with a policy of `N` max attempts: if every invocation fails with a
retryable error, the operation is invoked exactly `N` times and the last
error is returned; a successful invocation stops further attempts and
returns the value; an invocation failing with a non-retryable error stops
further attempts (in particular a non-retryable first failure means
exactly one invocation). -/
theorem retry_execute_spec {α : Type} :
    (∀ (op : Nat → Except MihomoError α) (N : Nat) (e : MihomoError), 1 ≤ N →
      (∀ i, i < N → ∃ e', op i = .error e' ∧ e'.is_retryable = true) →
      op (N - 1) = .error e →
      RetryExecutor.execute op N = (.error e, N)) ∧
    (∀ (op : Nat → Except MihomoError α) (N k : Nat) (v : α), k < N →
      (∀ i, i < k → ∃ e', op i = .error e' ∧ e'.is_retryable = true) →
      op k = .ok v →
      RetryExecutor.execute op N = (.ok v, k + 1)) ∧
    (∀ (op : Nat → Except MihomoError α) (N k : Nat) (e : MihomoError), k < N →
      (∀ i, i < k → ∃ e', op i = .error e' ∧ e'.is_retryable = true) →
      op k = .error e → e.is_retryable = false →
      RetryExecutor.execute op N = (.error e, k + 1)) := by
  refine ⟨?_, ?_, ?_⟩
  · intro op N e hN hall hlast
    exact executeGo_all_err op N e N hN (le_refl _)
      (fun i hi hi2 => hall i hi2) hlast
  · intro op N k v hk hall hv
    have h := (executeGo_stop op N N k (le_refl _) hk (by omega)
      (fun i hi hi2 => hall i hi2)).1 v hv
    rw [RetryExecutor.execute, h]
    congr 1
    omega
  · intro op N k e hk hall he hre
    have h := (executeGo_stop op N N k (le_refl _) hk (by omega)
      (fun i hi hi2 => hall i hi2)).2 e he hre
    rw [RetryExecutor.execute, h]
    congr 1
    omega

/-- Witness for C3: with three attempts, a persistently failing retryable
operation is invoked three times; two retryable failures then a success
yield the value after three invocations; a non-retryable first failure
stops after one invocation. -/
theorem retry_execute_spec_witness :
    RetryExecutor.execute
        (fun _ => (.error (.Network (chars "x")) : Except MihomoError Nat)) 3
      = (.error (.Network (chars "x")), 3) ∧
    RetryExecutor.execute
        (fun i => if i < 2 then (.error (.Network (chars "x")) : Except MihomoError Nat)
          else .ok 42) 3
      = (.ok 42, 3) ∧
    RetryExecutor.execute
        (fun _ => (.error (.Auth (chars "x")) : Except MihomoError Nat)) 3
      = (.error (.Auth (chars "x")), 1) := by
  refine ⟨?_, ?_, ?_⟩
  · exact (retry_execute_spec (α := Nat)).1 _ 3 (.Network (chars "x")) (by omega)
      (fun i _ => ⟨.Network (chars "x"), rfl, rfl⟩) rfl
  · exact (retry_execute_spec (α := Nat)).2.1 _ 3 2 42 (by omega)
      (fun i hi => ⟨.Network (chars "x"), by rw [if_pos hi], rfl⟩) rfl
  · exact (retry_execute_spec (α := Nat)).2.2 _ 3 0 (.Auth (chars "x")) (by omega)
      (fun i hi => absurd hi (by omega)) rfl rfl

/-! ## Claim C2: status handling of client requests -/

/-- Claim C2 (counterexample).  The claim says a 401 response yields an
`Auth` error, a 404 a `NotFound` error and a 503 a `ServiceUnavailable`
error; the client in fact returns a `Network` error for each of them. -/
theorem client_status_counterexample :
    clientGetResult 401 (chars "x") (fun _ => (.ok 0 : Except MihomoError Nat))
        = .error (responseError 401 (chars "x")) ∧
    (responseError 401 (chars "x")).isAuthKind = false ∧
    (responseError 401 (chars "x")).isNetworkKind = true ∧
    clientGetResult 404 (chars "x") (fun _ => (.ok 0 : Except MihomoError Nat))
        = .error (responseError 404 (chars "x")) ∧
    (responseError 404 (chars "x")).isNotFoundKind = false ∧
    clientGetResult 503 (chars "x") (fun _ => (.ok 0 : Except MihomoError Nat))
        = .error (responseError 503 (chars "x")) ∧
    (responseError 503 (chars "x")).isServiceUnavailableKind = false := by
  refine ⟨rfl, rfl, rfl, rfl, rfl, rfl, rfl⟩

/-- Claim C2 (corrected).  For every non-2xx HTTP response, the client
returns a `Network` error carrying the status and the response text,
regardless of the status code: its category is `Network` and it is
retryable. -/
theorem client_error_uniform :
    ∀ (status : Nat) (text : List Char), isSuccessStatus status = false →
      (∀ (α : Type) (parse : List Char → Except MihomoError α),
        clientGetResult status text parse = .error (responseError status text)) ∧
      (responseError status text).isNetworkKind = true ∧
      (responseError status text).category = ErrorCategory.Network ∧
      (responseError status text).is_retryable = true := by
  intro status text hs
  refine ⟨?_, rfl, rfl, rfl⟩
  intro α parse
  simp [clientGetResult, hs]

/-- Witness for C2: a 404 response with body `x` produces the uniform
`Network` error. -/
theorem client_error_uniform_witness :
    clientGetResult 404 (chars "x") (fun _ => (.ok 0 : Except MihomoError Nat))
        = .error (responseError 404 (chars "x")) ∧
    (responseError 404 (chars "x")).category = ErrorCategory.Network := by
  have h := client_error_uniform 404 (chars "x") (by decide)
  exact ⟨h.1 Nat _, h.2.2.1⟩

/-! ## Claim C5: `switch_proxy` validation and cache update -/

/-- Claim C5 (confirmed).  `switch_proxy` fails with a `Proxy` error
before issuing any HTTP request whenever the group is absent from the
cache or the node is not in the group's `all` list; when both checks pass
it issues the PUT and, on success, sets the cached group's `now` to the
node. -/
theorem switch_proxy_spec :
    (∀ (cache : GroupCache) (g n : List Char) (put : Except MihomoError Unit),
      cacheGet cache g = none →
      ∃ m, switch_proxy cache g n put = ⟨.error (.Proxy m), false, cache⟩) ∧
    (∀ (cache : GroupCache) (g n : List Char) (put : Except MihomoError Unit)
        (grp : ProxyGroup),
      cacheGet cache g = some grp → n ∉ grp.all →
      ∃ m, switch_proxy cache g n put = ⟨.error (.Proxy m), false, cache⟩) ∧
    (∀ (cache : GroupCache) (g n : List Char) (grp : ProxyGroup),
      cacheGet cache g = some grp → n ∈ grp.all →
      (switch_proxy cache g n (.ok ())).result = .ok () ∧
      (switch_proxy cache g n (.ok ())).httpIssued = true ∧
      cacheGet (switch_proxy cache g n (.ok ())).cache g = some { grp with now := n }) := by
  refine ⟨?_, ?_, ?_⟩
  · intro cache g n put h
    refine ⟨chars "Proxy group " ++ g ++ chars " not found", ?_⟩
    simp [switch_proxy, h]
  · intro cache g n put grp h hn
    refine ⟨chars "Proxy " ++ n ++ chars " not found in group " ++ g, ?_⟩
    simp [switch_proxy, h, hn]
  · intro cache g n grp h hn
    refine ⟨by simp [switch_proxy, h, hn], by simp [switch_proxy, h, hn], ?_⟩
    simp only [switch_proxy, h, if_pos hn]
    rw [cacheGet_cacheUpdate]
    rw [h]
    rfl

/-- Witness for C5: on a cache holding group `GLOBAL` with members
`A`, `B` and `now = A`, switching to `B` succeeds and updates `now`,
while switching to the non-member `C` fails with a `Proxy` error without
issuing the PUT. -/
theorem switch_proxy_spec_witness :
    (switch_proxy [(chars "GLOBAL", ⟨chars "GLOBAL", chars "A", [chars "A", chars "B"]⟩)]
        (chars "GLOBAL") (chars "B") (.ok ())).result = .ok () ∧
    cacheGet (switch_proxy [(chars "GLOBAL", ⟨chars "GLOBAL", chars "A", [chars "A", chars "B"]⟩)]
        (chars "GLOBAL") (chars "B") (.ok ())).cache (chars "GLOBAL")
      = some ⟨chars "GLOBAL", chars "B", [chars "A", chars "B"]⟩ ∧
    (∃ m, switch_proxy [(chars "GLOBAL", ⟨chars "GLOBAL", chars "A", [chars "A", chars "B"]⟩)]
        (chars "GLOBAL") (chars "C") (.ok ())
      = ⟨.error (.Proxy m), false,
          [(chars "GLOBAL", ⟨chars "GLOBAL", chars "A", [chars "A", chars "B"]⟩)]⟩) := by
  have h3 := switch_proxy_spec.2.2
    [(chars "GLOBAL", ⟨chars "GLOBAL", chars "A", [chars "A", chars "B"]⟩)]
    (chars "GLOBAL") (chars "B") ⟨chars "GLOBAL", chars "A", [chars "A", chars "B"]⟩
    (by decide) (by decide)
  have h2 := switch_proxy_spec.2.1
    [(chars "GLOBAL", ⟨chars "GLOBAL", chars "A", [chars "A", chars "B"]⟩)]
    (chars "GLOBAL") (chars "C") (.ok ())
    ⟨chars "GLOBAL", chars "A", [chars "A", chars "B"]⟩
    (by decide) (by decide)
  exact ⟨h3.1, h3.2.2, h2⟩

/-! ## Claim C10: `switch_proxy` leaves the cache unchanged on PUT failure -/

/-- Claim C10 (confirmed).  For every group and node passing the
membership validation, if the PUT to the engine fails, `switch_proxy`
returns that error, and the whole cached snapshot — in particular the
group's `now` — is left unchanged. -/
theorem switch_proxy_cache_atomic :
    ∀ (cache : GroupCache) (g n : List Char) (grp : ProxyGroup) (e : MihomoError),
      cacheGet cache g = some grp → n ∈ grp.all →
      switch_proxy cache g n (.error e) = ⟨.error e, true, cache⟩ := by
  intro cache g n grp e h hn
  simp [switch_proxy, h, hn]

/-- Witness for C10: a failing PUT while switching `GLOBAL` to the member
`B` surfaces the PUT's error and leaves the cache exactly as it was. -/
theorem switch_proxy_cache_atomic_witness :
    switch_proxy [(chars "GLOBAL", ⟨chars "GLOBAL", chars "A", [chars "A", chars "B"]⟩)]
        (chars "GLOBAL") (chars "B") (.error (.Network (chars "down")))
      = ⟨.error (.Network (chars "down")), true,
          [(chars "GLOBAL", ⟨chars "GLOBAL", chars "A", [chars "A", chars "B"]⟩)]⟩ :=
  switch_proxy_cache_atomic _ _ _ ⟨chars "GLOBAL", chars "A", [chars "A", chars "B"]⟩ _
    (by decide) (by decide)

/-! ## Claim C9: installer platform table and asset selection -/

/-- Claim C9 (counterexample).  On a Linux armv7 host (`os = linux`,
`arch = arm`) the installer fails with `UnsupportedPlatform` even when the
`mihomo-linux-armv7-<version>.gz` asset exists — the claim's table row for
Linux armv7 does not exist in the code; and on a supported host whose
asset is absent the failure is `VersionNotFound`, not the claimed
`UnsupportedPlatform`. -/
theorem download_version_counterexample :
    selectAssetUrl (chars "linux") (chars "arm") (chars "v1.18.0")
        [(chars "mihomo-linux-armv7-v1.18.0.gz", chars "u")]
      = .error (.UnsupportedPlatform (chars "linux-arm")) ∧
    lookupUrl [(chars "mihomo-linux-armv7-v1.18.0.gz", chars "u")]
        (chars "mihomo-linux-armv7-v1.18.0.gz") = some (chars "u") ∧
    selectAssetUrl (chars "linux") (chars "x86_64") (chars "v1.18.0") []
      = .error (.VersionNotFound (chars "版本 v1.18.0 不支持当前平台 linux-amd64")) := by
  refine ⟨rfl, by decide, rfl⟩

/-- Claim C9 (corrected).  The installer supports exactly macOS
arm64/x86_64, Linux arm64/x86_64 and Windows x86_64, selecting the asset
`mihomo-<platform>-<version><ext>` per that table; a host outside the
table fails with `UnsupportedPlatform`, and a host in the table whose
asset is absent from the release fails with `VersionNotFound`. -/
theorem download_version_asset_selection :
    download_platform (chars "macos") (chars "aarch64")
        = some (chars "darwin-arm64", chars ".gz") ∧
    download_platform (chars "macos") (chars "x86_64")
        = some (chars "darwin-amd64", chars ".gz") ∧
    download_platform (chars "linux") (chars "aarch64")
        = some (chars "linux-arm64", chars ".gz") ∧
    download_platform (chars "linux") (chars "x86_64")
        = some (chars "linux-amd64", chars ".gz") ∧
    download_platform (chars "windows") (chars "x86_64")
        = some (chars "windows-amd64", chars ".zip") ∧
    (∀ os arch version urls, download_platform os arch = none →
      selectAssetUrl os arch version urls
        = .error (.UnsupportedPlatform (os ++ '-' :: arch))) ∧
    (∀ os arch platform ext version urls url,
      download_platform os arch = some (platform, ext) →
      lookupUrl urls (assetName platform version ext) = some url →
      selectAssetUrl os arch version urls = .ok url) ∧
    (∀ os arch platform ext version urls,
      download_platform os arch = some (platform, ext) →
      lookupUrl urls (assetName platform version ext) = none →
      ∃ m, selectAssetUrl os arch version urls = .error (.VersionNotFound m)) := by
  refine ⟨by decide, by decide, by decide, by decide, by decide, ?_, ?_, ?_⟩
  · intro os arch version urls h
    simp [selectAssetUrl, h]
  · intro os arch platform ext version urls url h hu
    simp [selectAssetUrl, h, hu]
  · intro os arch platform ext version urls h hu
    refine ⟨chars "版本 " ++ version ++ chars " 不支持当前平台 " ++ platform, ?_⟩
    simp [selectAssetUrl, h, hu]

/-- Witness for C9: on Linux x86_64 with the matching asset present, the
installer selects that asset's URL. -/
theorem download_version_asset_selection_witness :
    selectAssetUrl (chars "linux") (chars "x86_64") (chars "v1.18.0")
        [(chars "mihomo-linux-amd64-v1.18.0.gz", chars "u")] = .ok (chars "u") :=
  download_version_asset_selection.2.2.2.2.2.2.1
    (chars "linux") (chars "x86_64") (chars "linux-amd64") (chars ".gz")
    (chars "v1.18.0") [(chars "mihomo-linux-amd64-v1.18.0.gz", chars "u")]
    (chars "u") (by decide) (by decide)

/-! ## Claim C4: first-match rule lookup -/

/-- Claim C4 (counterexample).  On the list `[IP-CIDR "bad" → P,
MATCH → D]` and the query host `1.2.3.4`, the only rule whose predicate
holds is the `MATCH` rule, yet `match_rule` returns a `Rules` error
(raised while evaluating the malformed CIDR payload) instead of that rule
or `none`. -/
theorem match_rule_error_counterexample :
    match_rule [⟨.IpCidr, chars "bad", chars "P", 0⟩, ⟨.Match, [], chars "D", 0⟩]
        (chars "1.2.3.4") none
      = .error (.Rules (chars "Invalid CIDR format: bad")) ∧
    is_rule_match ⟨.Match, [], chars "D", 0⟩ (chars "1.2.3.4") none = .ok true ∧
    is_rule_match ⟨.IpCidr, chars "bad", chars "P", 0⟩ (chars "1.2.3.4") none
      = .error (.Rules (chars "Invalid CIDR format: bad")) :=
  ⟨rfl, rfl, rfl⟩

/-- Claim C4 (corrected).  `match_rule` walks the cached list in order and
returns the first rule whose predicate evaluates to `true` together with
that rule's target proxy, and returns `none` when every rule evaluates to
`false` — provided the predicates of the rules walked evaluate without
error; a rule whose predicate evaluation fails (a malformed IP-CIDR
payload probed with an IP-literal host) makes `match_rule` return that
error instead of skipping the rule. -/
theorem match_rule_first_match :
    (∀ (L₁ : List Rule) (r : Rule) (L₂ : List Rule) (target : List Char)
        (port : Option Nat),
      (∀ u ∈ L₁, is_rule_match u target port = .ok false) →
      is_rule_match r target port = .ok true →
      match_rule (L₁ ++ r :: L₂) target port = .ok (some (r, r.proxy))) ∧
    (∀ (L : List Rule) (target : List Char) (port : Option Nat),
      (∀ u ∈ L, is_rule_match u target port = .ok false) →
      match_rule L target port = .ok none) ∧
    (∀ (L₁ : List Rule) (r : Rule) (L₂ : List Rule) (target : List Char)
        (port : Option Nat) (e : MihomoError),
      (∀ u ∈ L₁, is_rule_match u target port = .ok false) →
      is_rule_match r target port = .error e →
      match_rule (L₁ ++ r :: L₂) target port = .error e) := by
  refine ⟨?_, ?_, ?_⟩
  · intro L₁ r L₂ target port hall hr
    induction L₁ with
    | nil => simp [match_rule, hr]
    | cons u L₁ ih =>
      have hu := hall u (by simp)
      have hrest : ∀ x ∈ L₁, is_rule_match x target port = .ok false :=
        fun x hx => hall x (by simp [hx])
      simp only [List.cons_append, match_rule, hu]
      exact ih hrest
  · intro L target port hall
    induction L with
    | nil => rfl
    | cons u L ih =>
      have hu := hall u (by simp)
      have hrest : ∀ x ∈ L, is_rule_match x target port = .ok false :=
        fun x hx => hall x (by simp [hx])
      simp only [match_rule, hu]
      exact ih hrest
  · intro L₁ r L₂ target port e hall hr
    induction L₁ with
    | nil => simp [match_rule, hr]
    | cons u L₁ ih =>
      have hu := hall u (by simp)
      have hrest : ∀ x ∈ L₁, is_rule_match x target port = .ok false :=
        fun x hx => hall x (by simp [hx])
      simp only [List.cons_append, match_rule, hu]
      exact ih hrest

/-- Witness for C4 (the spec's rule-match-order scenario): with rules
`[DOMAIN-SUFFIX google.com → Proxy, DOMAIN www.google.com → Direct,
MATCH → Reject]` and query `(www.google.com, 443)`, the first rule wins
and the target is `Proxy`. -/
theorem match_rule_first_match_witness :
    match_rule [⟨.DomainSuffix, chars "google.com", chars "Proxy", 0⟩,
        ⟨.Domain, chars "www.google.com", chars "Direct", 0⟩,
        ⟨.Match, [], chars "Reject", 0⟩] (chars "www.google.com") (some 443)
      = .ok (some (⟨.DomainSuffix, chars "google.com", chars "Proxy", 0⟩,
          chars "Proxy")) := by
  have h := match_rule_first_match.1 []
    ⟨.DomainSuffix, chars "google.com", chars "Proxy", 0⟩
    [⟨.Domain, chars "www.google.com", chars "Direct", 0⟩,
      ⟨.Match, [], chars "Reject", 0⟩]
    (chars "www.google.com") (some 443) (by simp) rfl
  simpa using h

/-! ## Claim C6: the DomainSuffix matcher -/

/-- `listEndsWith` agrees with the structural suffix relation. -/
theorem listEndsWith_iff (l s : List Char) :
    listEndsWith l s = true ↔ ∃ pre, l = pre ++ s := by
  unfold listEndsWith
  rw [Bool.and_eq_true, decide_eq_true_iff, decide_eq_true_iff]
  constructor
  · rintro ⟨hlen, hdrop⟩
    refine ⟨l.take (l.length - s.length), ?_⟩
    conv_lhs => rw [← List.take_append_drop (l.length - s.length) l]
    rw [hdrop]
  · rintro ⟨pre, rfl⟩
    constructor
    · simp
    · have hlen : (pre ++ s).length - s.length = pre.length := by
        simp
      rw [hlen, List.drop_left]

/-- Claim C6 (confirmed).  The DomainSuffix matcher matches exactly when
the host splits as `pre ++ suf` with `suf` case-insensitively equal to
the payload and `pre` either empty or ending in `.` — so the host ends
with the payload case-insensitively, and either the lengths are equal or
the character immediately before the suffix is a dot.  In particular
`www.google.com` and `google.com` match suffix `google.com` while
`google.com.cn` does not. -/
theorem domain_suffix_match_spec :
    (∀ (payload target : List Char),
      match_domain_suffix payload target = true ↔
        ∃ pre suf, target = pre ++ suf ∧ rustToLower suf = rustToLower payload ∧
          (pre = [] ∨ ∃ pre2, pre = pre2 ++ ['.'])) ∧
    match_domain_suffix (chars "google.com") (chars "www.google.com") = true ∧
    match_domain_suffix (chars "google.com") (chars "google.com") = true ∧
    match_domain_suffix (chars "google.com") (chars "google.com.cn") = false := by
  refine ⟨?_, by decide, by decide, by decide⟩
  intro payload target
  unfold match_domain_suffix
  rw [Bool.and_eq_true, Bool.or_eq_true, decide_eq_true_iff, decide_eq_true_iff,
    listEndsWith_iff]
  constructor
  · rintro ⟨⟨pre0, hsplit⟩, hor⟩
    have hlenp : pre0.length + payload.length = target.length := by
      have := congrArg List.length hsplit
      simpa [rustToLower] using this.symm
    have hk : target.length - payload.length = pre0.length := by omega
    have hdrop : rustToLower (target.drop pre0.length) = rustToLower payload := by
      have : (rustToLower target).drop pre0.length = rustToLower payload := by
        rw [hsplit]
        exact List.drop_left' (by simp [rustToLower])
      rw [← this, rustToLower, rustToLower, List.map_drop]
    refine ⟨target.take pre0.length, target.drop pre0.length,
      (List.take_append_drop _ _).symm, hdrop, ?_⟩
    rcases hor with hlen | hdot
    · left
      have hz : pre0.length = 0 := by omega
      simp [hz]
    · by_cases hz : pre0.length = 0
      · left
        simp [hz]
      · right
        refine ⟨target.take (pre0.length - 1), ?_⟩
        rw [hk] at hdot
        have hpe : pre0.length - 1 + 1 = pre0.length := by omega
        rw [← hpe, List.take_succ]
        rw [← List.get?_eq_getElem?, hdot]
        rfl
  · rintro ⟨pre, suf, rfl, hlow, hpre⟩
    have hsl : suf.length = payload.length := by
      have := congrArg List.length hlow
      simpa [rustToLower] using this
    constructor
    · refine ⟨rustToLower pre, ?_⟩
      rw [← hlow]
      simp [rustToLower]
    · rcases hpre with rfl | ⟨pre2, rfl⟩
      · left
        simp [hsl]
      · right
        have hk : (pre2 ++ ['.'] ++ suf).length - payload.length - 1 = pre2.length := by
          simp
          omega
        rw [hk]
        have hassoc : pre2 ++ ['.'] ++ suf = pre2 ++ ('.' :: suf) := by simp
        rw [hassoc, List.get?_eq_getElem?, List.getElem?_append_right (le_refl _)]
        simp

/-! ## Claim C7: the DstPort matcher -/

/-- Characters accepted by `parseDigits` are decimal digits. -/
theorem parseDigits_chars (s : List Char) (v : Nat) (h : parseDigits s = some v) :
    ∀ c ∈ s, c.isDigit = true := by
  intro c hc
  unfold parseDigits at h
  by_cases h1 : s = []
  · subst h1; simp at hc
  · rw [if_neg h1] at h
    by_cases h2 : s.all Char.isDigit = true
    · exact List.all_eq_true.mp h2 c hc
    · rw [if_neg h2] at h; exact absurd h (by simp)

/-- Characters accepted by the unsigned parser are `+` or digits. -/
theorem rustParseUnsigned_chars (s : List Char) (v : Nat)
    (h : rustParseUnsigned s = some v) : ∀ c ∈ s, c = '+' ∨ c.isDigit = true := by
  intro c hc
  cases s with
  | nil => simp at hc
  | cons c0 rest =>
    rw [show rustParseUnsigned (c0 :: rest)
        = if c0 = '+' then parseDigits rest else parseDigits (c0 :: rest) from rfl] at h
    by_cases h0 : c0 = '+'
    · rw [if_pos h0] at h
      rcases List.mem_cons.mp hc with rfl | hm
      · left; exact h0
      · right; exact parseDigits_chars rest v h c hm
    · rw [if_neg h0] at h
      right; exact parseDigits_chars (c0 :: rest) v h c hc

/-- Characters accepted by the `u16` parser are `+` or digits. -/
theorem rustParseU16_chars (s : List Char) (v : Nat)
    (h : rustParseU16 s = some v) : ∀ c ∈ s, c = '+' ∨ c.isDigit = true := by
  unfold rustParseU16 at h
  cases hu : rustParseUnsigned s with
  | none => rw [hu] at h; exact absurd h (by simp)
  | some w =>
    rw [hu] at h
    exact rustParseUnsigned_chars s w hu

/-- A string accepted by the `u16` parser contains no occurrence of a
character that is neither `+` nor a digit. -/
theorem hasChar_false_of_parse (s : List Char) (v : Nat)
    (h : rustParseU16 s = some v) (c : Char) (hp : ¬ c = '+')
    (hd : c.isDigit = false) : hasChar s c = false := by
  unfold hasChar
  rw [decide_eq_false_iff_not]
  intro hm
  rcases rustParseU16_chars s v h c hm with h1 | h1
  · exact hp h1
  · rw [hd] at h1; cases h1

/-- A digit is not whitespace. -/
theorem isDigit_not_whitespace (c : Char) (h : c.isDigit = true) :
    c.isWhitespace = false := by
  cases hw : c.isWhitespace
  · rfl
  · unfold Char.isWhitespace at hw
    simp only [Bool.or_eq_true, decide_eq_true_iff] at hw
    rcases hw with ((rfl | rfl) | rfl) | rfl <;> exact absurd h (by decide)

/-- `rustTrim` is the identity on whitespace-free strings. -/
theorem rustTrim_eq_self (s : List Char) (h : ∀ c ∈ s, c.isWhitespace = false) :
    rustTrim s = s := by
  unfold rustTrim
  have h1 : s.dropWhile Char.isWhitespace = s := by
    cases s with
    | nil => rfl
    | cons c cs =>
      rw [List.dropWhile_cons, if_neg]
      rw [h c (List.mem_cons_self c cs)]
      simp
  rw [h1]
  have h2 : s.reverse.dropWhile Char.isWhitespace = s.reverse := by
    cases hs : s.reverse with
    | nil => rfl
    | cons c cs =>
      rw [List.dropWhile_cons, if_neg]
      have hcmem : c ∈ s := by
        rw [← List.mem_reverse, hs]
        exact List.mem_cons_self c cs
      rw [h c hcmem]
      simp
  rw [h2, List.reverse_reverse]

/-- A string accepted by the `u16` parser is whitespace-free, hence fixed
by `rustTrim`. -/
theorem rustTrim_of_parse (s : List Char) (v : Nat)
    (h : rustParseU16 s = some v) : rustTrim s = s := by
  refine rustTrim_eq_self s (fun c hc => ?_)
  rcases rustParseU16_chars s v h c hc with rfl | hd
  · decide
  · exact isDigit_not_whitespace c hd

/-- Splitting a separator-free string returns it whole. -/
theorem rustSplit_no_sep (sep : Char) (s : List Char)
    (h : hasChar s sep = false) : rustSplit sep s = [s] := by
  induction s with
  | nil => rfl
  | cons c cs ih =>
    unfold hasChar at h
    rw [decide_eq_false_iff_not] at h
    have hc : ¬ c = sep := fun he => h (he ▸ List.mem_cons_self c cs)
    have hcs : hasChar cs sep = false := by
      unfold hasChar
      rw [decide_eq_false_iff_not]
      exact fun hm => h (List.mem_cons_of_mem c hm)
    simp only [rustSplit, if_neg hc, ih hcs]

/-- Splitting at the first separator occurrence. -/
theorem rustSplit_append (sep : Char) (s t : List Char)
    (h : hasChar s sep = false) :
    rustSplit sep (s ++ sep :: t) = s :: rustSplit sep t := by
  induction s with
  | nil => simp [rustSplit]
  | cons c cs ih =>
    unfold hasChar at h
    rw [decide_eq_false_iff_not] at h
    have hc : ¬ c = sep := fun he => h (he ▸ List.mem_cons_self c cs)
    have hcs : hasChar cs sep = false := by
      unfold hasChar
      rw [decide_eq_false_iff_not]
      exact fun hm => h (List.mem_cons_of_mem c hm)
    simp only [List.cons_append, rustSplit, if_neg hc, List.append_eq, ih hcs]

/-- Any character of a comma-joined list is a comma or from a piece. -/
theorem mem_joinWithComma (pieces : List (List Char)) (c : Char) :
    c ∈ joinWithComma pieces → c = ',' ∨ ∃ x ∈ pieces, c ∈ x := by
  induction pieces with
  | nil => intro h; simp [joinWithComma] at h
  | cons x rest ih =>
    cases rest with
    | nil =>
      intro h
      simp only [joinWithComma] at h
      exact Or.inr ⟨x, by simp, h⟩
    | cons y rest2 =>
      intro h
      simp only [joinWithComma] at h
      rcases List.mem_append.mp h with h1 | h2
      · exact Or.inr ⟨x, by simp, h1⟩
      · rcases List.mem_cons.mp h2 with rfl | h3
        · exact Or.inl rfl
        · rcases ih h3 with h4 | ⟨z, hz, hcz⟩
          · exact Or.inl h4
          · exact Or.inr ⟨z, by simp [List.mem_cons.mp hz], hcz⟩

/-- Splitting a comma-join of comma-free pieces recovers the pieces. -/
theorem rustSplit_joinWithComma (pieces : List (List Char))
    (hne : pieces ≠ [])
    (h : ∀ x ∈ pieces, hasChar x ',' = false) :
    rustSplit ',' (joinWithComma pieces) = pieces := by
  induction pieces with
  | nil => exact absurd rfl hne
  | cons x rest ih =>
    cases rest with
    | nil => simp [joinWithComma, rustSplit_no_sep ',' x (h x (by simp))]
    | cons y rest2 =>
      have hx := h x (by simp)
      rw [show joinWithComma (x :: y :: rest2) = x ++ ',' :: joinWithComma (y :: rest2)
          from rfl]
      rw [rustSplit_append ',' x _ hx]
      rw [ih (by simp) (fun z hz => h z (by simp [List.mem_cons.mp hz]))]

/-- Trimming is the identity on a list of parse-accepted pieces, so the
per-piece comparison may drop the trim. -/
theorem any_trim_congr (pieces : List (List Char)) (p : Nat)
    (h : ∀ z ∈ pieces, rustTrim z = z) :
    pieces.any (fun piece => rustParseU16 (rustTrim piece) == some p)
      = pieces.any (fun z => rustParseU16 z == some p) := by
  induction pieces with
  | nil => rfl
  | cons a b ih =>
    simp only [List.any_cons]
    rw [h a (by simp), ih (fun z hz => h z (by simp [hz]))]

/-- Claim C7 (confirmed).  The DstPort matcher never matches a query with
no port; against a single-`u16` payload it matches exactly the equal
port; against an inclusive range `lo-hi` it matches exactly the ports
between the endpoints; against a comma-separated list of singles it
matches exactly the listed ports; and the spec's boundary examples hold. -/
theorem dst_port_match_spec :
    (∀ payload, match_dst_port payload none = false) ∧
    (∀ (s : List Char) (q p : Nat), rustParseU16 s = some q →
      match_dst_port s (some p) = decide (p = q)) ∧
    (∀ (s t : List Char) (lo hi p : Nat),
      rustParseU16 s = some lo → rustParseU16 t = some hi →
      match_dst_port (s ++ '-' :: t) (some p)
        = (decide (lo ≤ p) && decide (p ≤ hi))) ∧
    (∀ (pieces : List (List Char)) (p : Nat), 2 ≤ pieces.length →
      (∀ x ∈ pieces, ∃ q, rustParseU16 x = some q) →
      match_dst_port (joinWithComma pieces) (some p)
        = pieces.any (fun x => rustParseU16 x == some p)) ∧
    match_dst_port (chars "80") (some 80) = true ∧
    match_dst_port (chars "80-90") (some 85) = true ∧
    match_dst_port (chars "80-90") (some 79) = false ∧
    match_dst_port (chars "80-90") (some 91) = false ∧
    match_dst_port (chars "80,443,8080") (some 443) = true := by
  refine ⟨fun _ => rfl, ?_, ?_, ?_, by decide, by decide, by decide, by decide, by decide⟩
  · intro s q p hp
    have hnd := hasChar_false_of_parse s q hp '-' (by decide) (by decide)
    have hnc := hasChar_false_of_parse s q hp ',' (by decide) (by decide)
    simp [match_dst_port, hnd, hnc, hp]
  · intro s t lo hi p hs ht
    have hnds := hasChar_false_of_parse s lo hs '-' (by decide) (by decide)
    have hndt := hasChar_false_of_parse t hi ht '-' (by decide) (by decide)
    have hd : hasChar (s ++ '-' :: t) '-' = true := by
      unfold hasChar
      rw [decide_eq_true_iff]
      simp
    have hsplit : rustSplit '-' (s ++ '-' :: t) = [s, t] := by
      rw [rustSplit_append '-' s t hnds, rustSplit_no_sep '-' t hndt]
    simp [match_dst_port, hd, hsplit, hs, ht]
  · intro pieces p hlen hall
    obtain ⟨x, rest1, rfl⟩ : ∃ x rest1, pieces = x :: rest1 := by
      cases pieces with
      | nil => simp at hlen
      | cons a b => exact ⟨a, b, rfl⟩
    obtain ⟨y, rest2, rfl⟩ : ∃ y rest2, rest1 = y :: rest2 := by
      cases rest1 with
      | nil => simp at hlen
      | cons a b => exact ⟨a, b, rfl⟩
    have hcommafree : ∀ z ∈ x :: y :: rest2, hasChar z ',' = false := by
      intro z hz
      obtain ⟨q, hq⟩ := hall z hz
      exact hasChar_false_of_parse z q hq ',' (by decide) (by decide)
    have hnd : hasChar (joinWithComma (x :: y :: rest2)) '-' = false := by
      unfold hasChar
      rw [decide_eq_false_iff_not]
      intro hm
      rcases mem_joinWithComma _ '-' hm with h1 | ⟨z, hz, hcz⟩
      · cases h1
      · obtain ⟨q, hq⟩ := hall z hz
        have := hasChar_false_of_parse z q hq '-' (by decide) (by decide)
        unfold hasChar at this
        rw [decide_eq_false_iff_not] at this
        exact this hcz
    have hc : hasChar (joinWithComma (x :: y :: rest2)) ',' = true := by
      unfold hasChar
      rw [decide_eq_true_iff]
      rw [show joinWithComma (x :: y :: rest2) = x ++ ',' :: joinWithComma (y :: rest2)
          from rfl]
      simp
    have hsplit := rustSplit_joinWithComma (x :: y :: rest2) (by simp) hcommafree
    have hany := any_trim_congr (x :: y :: rest2) p
      (fun z hz => (hall z hz).elim (fun q hq => rustTrim_of_parse z q hq))
    simp [match_dst_port, hnd, hc, hsplit, hany]

/-- Witness for C7: the spec's port-set examples derived through the
theorem at concrete strings. -/
theorem dst_port_match_spec_witness :
    match_dst_port (chars "80") (some 80) = decide ((80 : Nat) = 80) ∧
    match_dst_port (chars "80" ++ '-' :: chars "90") (some 85)
      = (decide ((80 : Nat) ≤ 85) && decide ((85 : Nat) ≤ 90)) ∧
    match_dst_port (joinWithComma [chars "80", chars "443", chars "8080"]) (some 443)
      = [chars "80", chars "443", chars "8080"].any
          (fun x => rustParseU16 x == some 443) := by
  refine ⟨?_, ?_, ?_⟩
  · exact dst_port_match_spec.2.1 (chars "80") 80 80 (by decide)
  · exact dst_port_match_spec.2.2.1 (chars "80") (chars "90") 80 90 85
      (by decide) (by decide)
  · refine dst_port_match_spec.2.2.2.1 [chars "80", chars "443", chars "8080"] 443
      (by decide) ?_
    intro x hx
    rcases List.mem_cons.mp hx with rfl | hx2
    · exact ⟨80, by decide⟩
    · rcases List.mem_cons.mp hx2 with rfl | hx3
      · exact ⟨443, by decide⟩
      · rcases List.mem_cons.mp hx3 with rfl | hx4
        · exact ⟨8080, by decide⟩
        · simp at hx4

/-! ## Claim C1: automatic fastest-proxy selection -/

/-- The fold of `auto_select_fastest_proxy` is the identity when every
probe result is an error. -/
theorem selectBestGo_all_err (rs : List (List Char × Except MihomoError DelayHistory))
    (h : ∀ x ∈ rs, ∃ e, x.2 = Except.error e) :
    ∀ best, selectBestGo best rs = best := by
  induction rs with
  | nil => intro best; rfl
  | cons hd tl ih =>
    intro best
    obtain ⟨name, res⟩ := hd
    obtain ⟨e, he⟩ := h (name, res) (by simp)
    simp only at he
    subst he
    simp only [selectBestGo]
    exact ih (fun x hx => h x (by simp [hx])) best

/-- The fold of `auto_select_fastest_proxy` keeps the first successful
result attaining the minimum delay: its output either is the incoming
accumulator (then minimal over the list), or splits the list at the
selected entry, with every earlier success strictly slower and every
later success no faster. -/
theorem selectBestGo_split (rs : List (List Char × Except MihomoError DelayHistory)) :
    ∀ (best : Option (List Char × DelayHistory)) (n : List Char) (d : DelayHistory),
      selectBestGo best rs = some (n, d) →
      (best = some (n, d) ∧
        ∀ m dh, (m, Except.ok dh) ∈ rs → d.delay ≤ dh.delay) ∨
      ∃ pre post, rs = pre ++ (n, Except.ok d) :: post ∧
        (∀ m dh, (m, Except.ok dh) ∈ pre → d.delay < dh.delay) ∧
        (∀ b : List Char × DelayHistory, best = some b → d.delay < b.2.delay) ∧
        (∀ m dh, (m, Except.ok dh) ∈ post → d.delay ≤ dh.delay) := by
  induction rs with
  | nil =>
    intro best n d h
    left
    exact ⟨h, by simp⟩
  | cons hd tl ih =>
    intro best n d h
    obtain ⟨name, res⟩ := hd
    cases res with
    | error e =>
      simp only [selectBestGo] at h
      rcases ih best n d h with ⟨hb, hmin⟩ | ⟨pre, post, heq, hpre, hbest, hpost⟩
      · left
        refine ⟨hb, ?_⟩
        intro m dh hm
        rcases List.mem_cons.mp hm with heq2 | hm2
        · cases heq2
        · exact hmin m dh hm2
      · right
        refine ⟨(name, .error e) :: pre, post, by rw [heq]; rfl, ?_, hbest, hpost⟩
        intro m dh hm
        rcases List.mem_cons.mp hm with heq2 | hm2
        · cases heq2
        · exact hpre m dh hm2
    | ok dh0 =>
      cases best with
      | none =>
        simp only [selectBestGo] at h
        rcases ih (some (name, dh0)) n d h with ⟨hb, hmin⟩ |
            ⟨pre, post, heq, hpre, hbest, hpost⟩
        · simp only [Option.some.injEq, Prod.mk.injEq] at hb
          obtain ⟨rfl, rfl⟩ := hb
          right
          exact ⟨[], tl, rfl, by simp, by simp, hmin⟩
        · right
          refine ⟨(name, .ok dh0) :: pre, post, by rw [heq]; rfl, ?_, by simp, hpost⟩
          intro m dh hm
          rcases List.mem_cons.mp hm with heq2 | hm2
          · simp only [Prod.mk.injEq, Except.ok.injEq] at heq2
            rw [heq2.2]
            exact hbest _ rfl
          · exact hpre m dh hm2
      | some b =>
        obtain ⟨bn, bcur⟩ := b
        simp only [selectBestGo] at h
        by_cases hlt : dh0.delay < bcur.delay
        · rw [if_pos hlt] at h
          rcases ih (some (name, dh0)) n d h with ⟨hb, hmin⟩ |
              ⟨pre, post, heq, hpre, hbest, hpost⟩
          · simp only [Option.some.injEq, Prod.mk.injEq] at hb
            obtain ⟨rfl, rfl⟩ := hb
            right
            refine ⟨[], tl, rfl, by simp, ?_, hmin⟩
            intro b0 hb0
            simp only [Option.some.injEq] at hb0
            rw [← hb0]
            exact hlt
          · right
            refine ⟨(name, .ok dh0) :: pre, post, by rw [heq]; rfl, ?_, ?_, hpost⟩
            · intro m dh hm
              rcases List.mem_cons.mp hm with heq2 | hm2
              · simp only [Prod.mk.injEq, Except.ok.injEq] at heq2
                rw [heq2.2]
                exact hbest _ rfl
              · exact hpre m dh hm2
            · intro b0 hb0
              simp only [Option.some.injEq] at hb0
              rw [← hb0]
              exact lt_trans (hbest _ rfl) hlt
        · rw [if_neg hlt] at h
          rcases ih (some (bn, bcur)) n d h with ⟨hb, hmin⟩ |
              ⟨pre, post, heq, hpre, hbest, hpost⟩
          · simp only [Option.some.injEq, Prod.mk.injEq] at hb
            obtain ⟨rfl, rfl⟩ := hb
            left
            refine ⟨rfl, ?_⟩
            intro m dh hm
            rcases List.mem_cons.mp hm with heq2 | hm2
            · simp only [Prod.mk.injEq, Except.ok.injEq] at heq2
              rw [heq2.2]
              exact Nat.le_of_not_lt hlt
            · exact hmin m dh hm2
          · right
            refine ⟨(name, .ok dh0) :: pre, post, by rw [heq]; rfl, ?_, hbest, hpost⟩
            intro m dh hm
            rcases List.mem_cons.mp hm with heq2 | hm2
            · simp only [Prod.mk.injEq, Except.ok.injEq] at heq2
              rw [heq2.2]
              exact lt_of_lt_of_le (hbest _ rfl) (Nat.le_of_not_lt hlt)
            · exact hpre m dh hm2

/-- Claim C1 (counterexample).  Group `G` has members `X`, `Y`, `Z`; the
probes succeed with delays `X:300, Y:120, Z:120`.  When the results map
iterates in the order `X, Z, Y` — a legitimate `HashMap` iteration
order — the function selects and switches to `Z`, although `Y` has the
same minimal delay and lexicographically precedes `Z` (`'Y' < 'Z'`), so
the claimed lexicographic tie-break does not hold. -/
theorem auto_select_tiebreak_counterexample :
    (auto_select_fastest_proxy
        [(chars "G", ⟨chars "G", chars "X", [chars "X", chars "Y", chars "Z"]⟩)]
        (chars "G")
        [(chars "X", .ok ⟨300, none⟩), (chars "Z", .ok ⟨120, none⟩),
          (chars "Y", .ok ⟨120, none⟩)]
        (.ok ())).1 = .ok (chars "Z", ⟨120, none⟩) ∧
    (chars "Y", (Except.ok ⟨120, none⟩ : Except MihomoError DelayHistory)) ∈
      [(chars "X", (.ok ⟨300, none⟩ : Except MihomoError DelayHistory)),
        (chars "Z", .ok ⟨120, none⟩), (chars "Y", .ok ⟨120, none⟩)] ∧
    ('Y' < 'Z') ∧
    cacheGet (auto_select_fastest_proxy
        [(chars "G", ⟨chars "G", chars "X", [chars "X", chars "Y", chars "Z"]⟩)]
        (chars "G")
        [(chars "X", .ok ⟨300, none⟩), (chars "Z", .ok ⟨120, none⟩),
          (chars "Y", .ok ⟨120, none⟩)]
        (.ok ())).2 (chars "G")
      = some ⟨chars "G", chars "Z", [chars "X", chars "Y", chars "Z"]⟩ := by
  refine ⟨rfl, by simp, by decide, rfl⟩

/-- Claim C1 (corrected).  `auto_select_fastest_proxy` fails with a
`Proxy` error when the group is absent, its member list is empty, or all
probes failed; otherwise it selects a proxy with the minimum delay among
the successful results — ties broken by the iteration order of the
results map (the first minimal success wins), not by lexicographic
name — and switches the group to it, updating the cached `now`. -/
theorem auto_select_spec :
    (∀ (cache : GroupCache) (g : List Char) probes put,
      cacheGet cache g = none →
      ∃ m, auto_select_fastest_proxy cache g probes put = (.error (.Proxy m), cache)) ∧
    (∀ (cache : GroupCache) (g : List Char) probes put (grp : ProxyGroup),
      cacheGet cache g = some grp → grp.all = [] →
      ∃ m, auto_select_fastest_proxy cache g probes put = (.error (.Proxy m), cache)) ∧
    (∀ (cache : GroupCache) (g : List Char) probes put (grp : ProxyGroup),
      cacheGet cache g = some grp → grp.all ≠ [] →
      (∀ x ∈ probes, ∃ e, x.2 = Except.error e) →
      auto_select_fastest_proxy cache g probes put
        = (.error (.Proxy (chars "No available proxy found")), cache)) ∧
    (∀ probes (n : List Char) (d : DelayHistory),
      selectBest probes = some (n, d) →
      ∃ pre post, probes = pre ++ (n, Except.ok d) :: post ∧
        (∀ m dh, (m, Except.ok dh) ∈ pre → d.delay < dh.delay) ∧
        (∀ m dh, (m, Except.ok dh) ∈ post → d.delay ≤ dh.delay)) ∧
    (∀ (cache : GroupCache) (g : List Char) probes (grp : ProxyGroup)
        (n : List Char) (d : DelayHistory),
      cacheGet cache g = some grp → grp.all ≠ [] →
      selectBest probes = some (n, d) → n ∈ grp.all →
      (auto_select_fastest_proxy cache g probes (.ok ())).1 = .ok (n, d) ∧
      cacheGet (auto_select_fastest_proxy cache g probes (.ok ())).2 g
        = some { grp with now := n }) := by
  refine ⟨?_, ?_, ?_, ?_, ?_⟩
  · intro cache g probes put h
    refine ⟨chars "Proxy group " ++ g ++ chars " not found", ?_⟩
    simp [auto_select_fastest_proxy, h]
  · intro cache g probes put grp h hall
    refine ⟨chars "Proxy group " ++ g ++ chars " is empty", ?_⟩
    simp [auto_select_fastest_proxy, h, hall]
  · intro cache g probes put grp h hne herr
    have hsel : selectBest probes = none := selectBestGo_all_err probes herr none
    simp [auto_select_fastest_proxy, h, hne, hsel]
  · intro probes n d h
    rcases selectBestGo_split probes none n d h with ⟨hb, _⟩ |
        ⟨pre, post, heq, hpre, _, hpost⟩
    · cases hb
    · exact ⟨pre, post, heq, hpre, hpost⟩
  · intro cache g probes grp n d h hne hsel hmem
    have hsw : switch_proxy cache g n (.ok ())
        = ⟨.ok (), true, cacheUpdate (fun gg => { gg with now := n }) cache g⟩ := by
      simp [switch_proxy, h, hmem]
    constructor
    · simp [auto_select_fastest_proxy, h, hne, hsel, hsw]
    · simp only [auto_select_fastest_proxy, h, hne, hsel, hsw, if_false]
      rw [cacheGet_cacheUpdate, h]
      rfl

/-- Witness for C1 (the spec's fastest-selection scenario): with probes
iterated in the order `X:300, Y:120, Z:120`, the first minimal success is
`Y`; the group switches to `Y` and the cached `now` becomes `Y`. -/
theorem auto_select_spec_witness :
    (auto_select_fastest_proxy
        [(chars "G", ⟨chars "G", chars "X", [chars "X", chars "Y", chars "Z"]⟩)]
        (chars "G")
        [(chars "X", .ok ⟨300, none⟩), (chars "Y", .ok ⟨120, none⟩),
          (chars "Z", .ok ⟨120, none⟩)]
        (.ok ())).1 = .ok (chars "Y", ⟨120, none⟩) ∧
    cacheGet (auto_select_fastest_proxy
        [(chars "G", ⟨chars "G", chars "X", [chars "X", chars "Y", chars "Z"]⟩)]
        (chars "G")
        [(chars "X", .ok ⟨300, none⟩), (chars "Y", .ok ⟨120, none⟩),
          (chars "Z", .ok ⟨120, none⟩)]
        (.ok ())).2 (chars "G")
      = some ⟨chars "G", chars "Y", [chars "X", chars "Y", chars "Z"]⟩ := by
  have h := auto_select_spec.2.2.2.2
    [(chars "G", ⟨chars "G", chars "X", [chars "X", chars "Y", chars "Z"]⟩)]
    (chars "G")
    [(chars "X", .ok ⟨300, none⟩), (chars "Y", .ok ⟨120, none⟩),
      (chars "Z", .ok ⟨120, none⟩)]
    ⟨chars "G", chars "X", [chars "X", chars "Y", chars "Z"]⟩
    (chars "Y") ⟨120, none⟩
    (by decide) (by decide) (by decide) (by decide)
  exact ⟨h.1, h.2⟩

/-! ## Claim C8: the IP-CIDR matcher

The bridge from the code's mask-and-compare computations to the
specification's big-endian numeric view (`u32` for IPv4, `u128` for
IPv6): ANDing with a high-bits mask is truncation to a multiple of a
power of two, so masked equality is equality of the high quotients. -/

/-- A boolean equal, as a proposition, to a decidable proposition is the
`decide` of that proposition. -/
theorem bool_eq_decide_of_iff {b : Bool} {p : Prop} [Decidable p]
    (h : b = true ↔ p) : b = decide p := by
  cases hb : b
  · symm
    rw [decide_eq_false_iff_not]
    intro hp
    rw [← h] at hp
    rw [hb] at hp
    cases hp
  · symm
    rw [decide_eq_true_iff]
    exact h.mp hb

/-- The wrapped `!0u32 << (32 - p)` equals the arithmetic high-bits mask. -/
theorem rustU32Mask_eq (p : Nat) (hp : p ≤ 32) :
    rustU32Mask p = 2 ^ 32 - 2 ^ (32 - p) := by
  have h : ∀ q, q < 33 → rustU32Mask q = 2 ^ 32 - 2 ^ (32 - q) := by decide
  exact h p (by omega)

/-- The wrapped `!0u8 << (8 - r)` equals the arithmetic high-bits mask. -/
theorem rustU8Mask_eq (r : Nat) (hr : r ≤ 8) :
    rustU8Mask r = 2 ^ 8 - 2 ^ (8 - r) := by
  have h : ∀ q, q < 9 → rustU8Mask q = 2 ^ 8 - 2 ^ (8 - q) := by decide
  exact h r (by omega)

/-- ANDing an `n`-bit value with the mask of its upper `n - k` bits
truncates it to a multiple of `2 ^ k`. -/
theorem and_highMask (n k x : Nat) (hk : k ≤ n) (hx : x < 2 ^ n) :
    x &&& (2 ^ n - 2 ^ k) = 2 ^ k * (x / 2 ^ k) := by
  have hmdvd : 2 ^ k ∣ 2 ^ n - 2 ^ k :=
    Nat.dvd_sub (Nat.pow_le_pow_right (by omega) hk) (pow_dvd_pow 2 hk) dvd_rfl
  apply Nat.eq_of_testBit_eq
  intro i
  rw [Nat.testBit_and]
  rcases Nat.lt_or_ge i k with hik | hik
  · have hm : (2 ^ n - 2 ^ k).testBit i = false := by
      have h0 : (2 ^ n - 2 ^ k) % 2 ^ k = 0 := Nat.mod_eq_zero_of_dvd hmdvd
      have ht := Nat.testBit_mod_two_pow (2 ^ n - 2 ^ k) k i
      rw [h0] at ht
      simp [hik] at ht
      exact ht
    have hr : (2 ^ k * (x / 2 ^ k)).testBit i = false := by
      have h0 : (2 ^ k * (x / 2 ^ k)) % 2 ^ k = 0 := Nat.mul_mod_right _ _
      have ht := Nat.testBit_mod_two_pow (2 ^ k * (x / 2 ^ k)) k i
      rw [h0] at ht
      simp [hik] at ht
      exact ht
    rw [hm, hr, Bool.and_false]
  · obtain ⟨j, rfl⟩ : ∃ j, i = k + j := ⟨i - k, by omega⟩
    have hsplitpow : 2 ^ k * 2 ^ (n - k) = 2 ^ n := by
      rw [← pow_add]
      congr 1
      omega
    have hms : (2 ^ n - 2 ^ k) >>> k = 2 ^ (n - k) - 1 := by
      rw [Nat.shiftRight_eq_div_pow]
      have hdecomp : 2 ^ n - 2 ^ k = 2 ^ k * (2 ^ (n - k) - 1) := by
        rw [Nat.mul_sub_one, hsplitpow]
      rw [hdecomp, Nat.mul_div_cancel_left _ (Nat.two_pow_pos k)]
    have hmb : (2 ^ n - 2 ^ k).testBit (k + j) = decide (j < n - k) := by
      rw [← Nat.testBit_shiftRight, hms, Nat.testBit_two_pow_sub_one]
    have hrb : (2 ^ k * (x / 2 ^ k)).testBit (k + j) = x.testBit (k + j) := by
      rw [← Nat.testBit_shiftRight]
      rw [Nat.shiftRight_eq_div_pow, Nat.mul_div_cancel_left _ (Nat.two_pow_pos k)]
      rw [← Nat.shiftRight_eq_div_pow, Nat.testBit_shiftRight]
    rw [hmb, hrb]
    rcases Nat.lt_or_ge j (n - k) with hj | hj
    · simp [hj]
    · have hxb : x.testBit (k + j) = false := by
        apply Nat.testBit_lt_two_pow
        calc x < 2 ^ n := hx
          _ ≤ 2 ^ (k + j) := Nat.pow_le_pow_right (by omega) (by omega)
      rw [hxb]
      simp [show ¬ j < n - k from by omega]

/-- Masked equality is equality of the high quotients. -/
theorem and_highMask_eq_iff (n k x y : Nat) (hk : k ≤ n) (hx : x < 2 ^ n)
    (hy : y < 2 ^ n) :
    ((x &&& (2 ^ n - 2 ^ k)) = (y &&& (2 ^ n - 2 ^ k))) ↔ x / 2 ^ k = y / 2 ^ k := by
  rw [and_highMask n k x hk hx, and_highMask n k y hk hy]
  constructor
  · intro h
    exact Nat.eq_of_mul_eq_mul_left (Nat.two_pow_pos k) h
  · intro h
    rw [h]

/-- A byte string denotes a value below `256 ^ length`. -/
theorem bytesToNat_lt (l : List Nat) (h : ∀ x ∈ l, x < 256) :
    bytesToNat l < 256 ^ l.length := by
  induction l with
  | nil => simp [bytesToNat]
  | cons b bs ih =>
    have h1 : bytesToNat bs < 256 ^ bs.length := ih (fun x hx => h x (by simp [hx]))
    have h2 : b ≤ 255 := by have := h b (by simp); omega
    have h3 : b * 256 ^ bs.length ≤ 255 * 256 ^ bs.length :=
      Nat.mul_le_mul_right _ h2
    have h4 : (256 : Nat) ^ (bs.length + 1) = 256 * 256 ^ bs.length := by
      rw [pow_succ]
      ring
    simp only [bytesToNat, List.length_cons, h4]
    omega

/-- Octet bounds give a `u32`-bounded big-endian value. -/
theorem u32OfV4_lt (a b c d : Nat) (ha : a < 256) (hb : b < 256) (hc : c < 256)
    (hd : d < 256) : u32OfV4 a b c d < 2 ^ 32 := by
  unfold u32OfV4
  omega

/-- Bit-prefix equality of byte strings is equality of the high quotients
of their big-endian values: the structural byte-wise comparison agrees
with the specification's wide-integer masking view. -/
theorem prefixBitsEq_iff_div :
    ∀ (a b : List Nat) (p : Nat), a.length = b.length →
      (∀ x ∈ a, x < 256) → (∀ x ∈ b, x < 256) → p ≤ 8 * a.length →
      (prefixBitsEq a b p = true ↔
        bytesToNat a / 2 ^ (8 * a.length - p)
          = bytesToNat b / 2 ^ (8 * a.length - p)) := by
  intro a
  induction a with
  | nil =>
    intro b p hlen ha hb hp
    have hb0 : b = [] := by
      cases b with
      | nil => rfl
      | cons y ys => simp at hlen
    subst hb0
    have hp0 : p = 0 := by simpa using hp
    subst hp0
    simp [prefixBitsEq, bytesToNat]
  | cons x xs ih =>
    intro b p hlen ha hb hp
    obtain ⟨y, ys, rfl⟩ : ∃ y ys, b = y :: ys := by
      cases b with
      | nil => simp at hlen
      | cons y ys => exact ⟨y, ys, rfl⟩
    have hlen2 : xs.length = ys.length := by simpa using hlen
    have hx : x < 256 := ha x (by simp)
    have hy : y < 256 := hb y (by simp)
    have hxs : ∀ z ∈ xs, z < 256 := fun z hz => ha z (by simp [hz])
    have hys : ∀ z ∈ ys, z < 256 := fun z hz => hb z (by simp [hz])
    have hra : bytesToNat xs < 256 ^ xs.length := bytesToNat_lt xs hxs
    have hrb2 : bytesToNat ys < 256 ^ xs.length := by
      rw [hlen2]
      exact bytesToNat_lt ys hys
    have hby : bytesToNat (y :: ys) = y * 256 ^ xs.length + bytesToNat ys := by
      simp [bytesToNat, hlen2]
    rcases Nat.eq_zero_or_pos p with rfl | hpos
    · have h1 : bytesToNat (x :: xs) < 2 ^ (8 * (x :: xs).length) := by
        calc bytesToNat (x :: xs) < 256 ^ (x :: xs).length := bytesToNat_lt _ ha
          _ = 2 ^ (8 * (x :: xs).length) := by
            rw [show (256 : Nat) = 2 ^ 8 from rfl, ← pow_mul]
      have h2 : bytesToNat (y :: ys) < 2 ^ (8 * (x :: xs).length) := by
        calc bytesToNat (y :: ys) < 256 ^ (y :: ys).length := bytesToNat_lt _ hb
          _ = 2 ^ (8 * (x :: xs).length) := by
            rw [show (256 : Nat) = 2 ^ 8 from rfl, ← pow_mul, hlen]
      simp only [Nat.sub_zero]
      rw [Nat.div_eq_of_lt h1, Nat.div_eq_of_lt h2]
      simp [prefixBitsEq]
    · obtain ⟨p0, rfl⟩ : ∃ p0, p = p0 + 1 := ⟨p - 1, by omega⟩
      by_cases h8 : 8 ≤ p0 + 1
      · have hpeq : prefixBitsEq (x :: xs) (y :: ys) (p0 + 1)
            = (decide (x = y) && prefixBitsEq xs ys (p0 + 1 - 8)) := by
          simp [prefixBitsEq, h8]
        have hp'le : p0 + 1 - 8 ≤ 8 * xs.length := by
          simp only [List.length_cons] at hp
          omega
        have hshift : 8 * (x :: xs).length - (p0 + 1)
            = 8 * xs.length - (p0 + 1 - 8) := by
          simp only [List.length_cons]
          omega
        have hsplitpow : (256 : Nat) ^ xs.length
            = 2 ^ (8 * xs.length - (p0 + 1 - 8)) * 2 ^ (p0 + 1 - 8) := by
          rw [← pow_add, show (256 : Nat) = 2 ^ 8 from rfl, ← pow_mul]
          congr 1
          omega
        have hkey : ∀ u ru : Nat, ru < 256 ^ xs.length →
            (u * 256 ^ xs.length + ru) / 2 ^ (8 * xs.length - (p0 + 1 - 8))
              = u * 2 ^ (p0 + 1 - 8)
                + ru / 2 ^ (8 * xs.length - (p0 + 1 - 8)) := by
          intro u ru hru
          have hmul : u * 256 ^ xs.length
              = 2 ^ (8 * xs.length - (p0 + 1 - 8)) * (u * 2 ^ (p0 + 1 - 8)) := by
            rw [hsplitpow]
            ring
          rw [hmul, Nat.mul_add_div (Nat.two_pow_pos _)]
        have hsmall : ∀ ru : Nat, ru < 256 ^ xs.length →
            ru / 2 ^ (8 * xs.length - (p0 + 1 - 8)) < 2 ^ (p0 + 1 - 8) := by
          intro ru hru
          rw [Nat.div_lt_iff_lt_mul (Nat.two_pow_pos _)]
          calc ru < 256 ^ xs.length := hru
            _ = 2 ^ (p0 + 1 - 8) * 2 ^ (8 * xs.length - (p0 + 1 - 8)) := by
              rw [hsplitpow]
              ring
        have hIH := ih ys (p0 + 1 - 8) hlen2 hxs hys hp'le
        rw [hpeq, hshift,
          show bytesToNat (x :: xs) = x * 256 ^ xs.length + bytesToNat xs from rfl,
          hby, hkey x _ hra, hkey y _ hrb2, Bool.and_eq_true, decide_eq_true_iff, hIH]
        constructor
        · rintro ⟨rfl, hq⟩
          rw [hq]
        · intro heq
          have hxeq : x = y := by
            have e1 : (x * 2 ^ (p0 + 1 - 8)
                + bytesToNat xs / 2 ^ (8 * xs.length - (p0 + 1 - 8)))
                  / 2 ^ (p0 + 1 - 8) = x := by
              rw [show x * 2 ^ (p0 + 1 - 8)
                    + bytesToNat xs / 2 ^ (8 * xs.length - (p0 + 1 - 8))
                  = 2 ^ (p0 + 1 - 8) * x
                    + bytesToNat xs / 2 ^ (8 * xs.length - (p0 + 1 - 8)) from by ring,
                Nat.mul_add_div (Nat.two_pow_pos _),
                Nat.div_eq_of_lt (hsmall _ hra), Nat.add_zero]
            have e2 : (y * 2 ^ (p0 + 1 - 8)
                + bytesToNat ys / 2 ^ (8 * xs.length - (p0 + 1 - 8)))
                  / 2 ^ (p0 + 1 - 8) = y := by
              rw [show y * 2 ^ (p0 + 1 - 8)
                    + bytesToNat ys / 2 ^ (8 * xs.length - (p0 + 1 - 8))
                  = 2 ^ (p0 + 1 - 8) * y
                    + bytesToNat ys / 2 ^ (8 * xs.length - (p0 + 1 - 8)) from by ring,
                Nat.mul_add_div (Nat.two_pow_pos _),
                Nat.div_eq_of_lt (hsmall _ hrb2), Nat.add_zero]
            rw [← e1, heq, e2]
          subst hxeq
          refine ⟨rfl, ?_⟩
          omega
      · have hpeq : prefixBitsEq (x :: xs) (y :: ys) (p0 + 1)
            = decide ((x &&& (2 ^ 8 - 2 ^ (8 - (p0 + 1))))
              = (y &&& (2 ^ 8 - 2 ^ (8 - (p0 + 1))))) := by
          simp [prefixBitsEq, h8]
        have hshift : 8 * (x :: xs).length - (p0 + 1)
            = 8 * xs.length + (8 - (p0 + 1)) := by
          simp only [List.length_cons]
          omega
        have hpow : (2 : Nat) ^ (8 * xs.length + (8 - (p0 + 1)))
            = 256 ^ xs.length * 2 ^ (8 - (p0 + 1)) := by
          rw [pow_add, show (256 : Nat) = 2 ^ 8 from rfl, ← pow_mul]
        have hdiv : ∀ u ru : Nat, ru < 256 ^ xs.length →
            (u * 256 ^ xs.length + ru) / 2 ^ (8 * xs.length + (8 - (p0 + 1)))
              = u / 2 ^ (8 - (p0 + 1)) := by
          intro u ru hru
          rw [hpow, ← Nat.div_div_eq_div_mul]
          congr 1
          rw [show u * 256 ^ xs.length + ru = 256 ^ xs.length * u + ru from by ring,
            Nat.mul_add_div (pow_pos (by norm_num) _), Nat.div_eq_of_lt hru,
            Nat.add_zero]
        rw [hpeq, hshift,
          show bytesToNat (x :: xs) = x * 256 ^ xs.length + bytesToNat xs from rfl,
          hby, hdiv x _ hra, hdiv y _ hrb2, decide_eq_true_iff]
        exact and_highMask_eq_iff 8 (8 - (p0 + 1)) x y (by omega)
          (by rw [show (2 : Nat) ^ 8 = 256 from by norm_num]; exact hx)
          (by rw [show (2 : Nat) ^ 8 = 256 from by norm_num]; exact hy)

/-- The slice-then-partial-byte comparison performed by the IPv6 arm of
`is_ip_in_cidr` (with the bound check stated against the list length)
equals the structural bit-prefix comparison. -/
theorem codeShape_eq_prefixBitsEq :
    ∀ (a b : List Nat) (p : Nat), a.length = b.length → p ≤ 8 * a.length →
      ((decide (a.take (p / 8) = b.take (p / 8)) &&
        (if 0 < p % 8 ∧ p / 8 < a.length then
          decide ((a.getD (p / 8) 0 &&& rustU8Mask (p % 8))
            = (b.getD (p / 8) 0 &&& rustU8Mask (p % 8)))
        else true)) = prefixBitsEq a b p) := by
  intro a
  induction a with
  | nil =>
    intro b p hlen hp
    have hb0 : b = [] := by
      cases b with
      | nil => rfl
      | cons y ys => simp at hlen
    subst hb0
    have hp0 : p = 0 := by simpa using hp
    subst hp0
    simp [prefixBitsEq]
  | cons x xs ih =>
    intro b p hlen hp
    obtain ⟨y, ys, rfl⟩ : ∃ y ys, b = y :: ys := by
      cases b with
      | nil => simp at hlen
      | cons y ys => exact ⟨y, ys, rfl⟩
    have hlen2 : xs.length = ys.length := by simpa using hlen
    rcases Nat.eq_zero_or_pos p with rfl | hpos
    · simp [prefixBitsEq]
    · obtain ⟨p0, rfl⟩ : ∃ p0, p = p0 + 1 := ⟨p - 1, by omega⟩
      by_cases h8 : 8 ≤ p0 + 1
      · have hdiv : (p0 + 1) / 8 = (p0 + 1 - 8) / 8 + 1 := by omega
        have hmod : (p0 + 1) % 8 = (p0 + 1 - 8) % 8 := by omega
        have hple : p0 + 1 - 8 ≤ 8 * xs.length := by
          simp only [List.length_cons] at hp
          omega
        rw [hdiv, hmod]
        rw [List.take_succ_cons, List.take_succ_cons, List.getD_cons_succ,
          List.getD_cons_succ]
        rw [show decide (x :: xs.take ((p0 + 1 - 8) / 8)
              = y :: ys.take ((p0 + 1 - 8) / 8))
            = (decide (x = y)
              && decide (xs.take ((p0 + 1 - 8) / 8) = ys.take ((p0 + 1 - 8) / 8)))
          from by simp [List.cons_eq_cons]]
        simp only [List.length_cons, Nat.add_lt_add_iff_right]
        rw [Bool.and_assoc]
        rw [ih ys (p0 + 1 - 8) hlen2 hple]
        rw [show prefixBitsEq (x :: xs) (y :: ys) (p0 + 1)
            = (decide (x = y) && prefixBitsEq xs ys (p0 + 1 - 8)) from by
          simp [prefixBitsEq, h8]]
      · have hdiv : (p0 + 1) / 8 = 0 := by omega
        have hmod : (p0 + 1) % 8 = p0 + 1 := by omega
        rw [hdiv, hmod]
        simp only [List.take_zero, List.getD_cons_zero]
        rw [if_pos (⟨hpos, by simp⟩ : 0 < p0 + 1 ∧ 0 < (x :: xs).length)]
        rw [rustU8Mask_eq (p0 + 1) (by omega)]
        rw [show prefixBitsEq (x :: xs) (y :: ys) (p0 + 1)
            = decide ((x &&& (2 ^ 8 - 2 ^ (8 - (p0 + 1))))
              = (y &&& (2 ^ 8 - 2 ^ (8 - (p0 + 1))))) from by
          simp [prefixBitsEq, h8]]
        simp

/-- `parseOctet` only accepts byte values. -/
theorem parseOctet_lt (s : List Char) (v : Nat) (h : parseOctet s = some v) :
    v < 256 := by
  unfold parseOctet at h
  split at h
  · exact absurd h (by simp)
  · split at h
    · exact absurd h (by simp)
    · split at h
      · exact absurd h (by simp)
      · split at h
        · exact absurd h (by simp)
        · change (if List.foldl (fun a c => a * 10 + decDigitVal c) 0 s ≤ 255 then
              some (List.foldl (fun a c => a * 10 + decDigitVal c) 0 s)
            else none) = some v at h
          split at h
          · injection h with h2
            omega
          · exact absurd h (by simp)

/-- IPv4 parses are well-formed. -/
theorem parseIpv4_wf (s : List Char) (ip : IpAddr) (h : parseIpv4 s = some ip) :
    ip.wf := by
  unfold parseIpv4 at h
  split at h
  · split at h
    · next x y z w ha hb hc hd =>
      injection h with h2
      subst h2
      exact ⟨parseOctet_lt _ _ ha, parseOctet_lt _ _ hb,
        parseOctet_lt _ _ hc, parseOctet_lt _ _ hd⟩
    · exact absurd h (by simp)
  · exact absurd h (by simp)

/-- `hextetsToBytes` doubles the length. -/
theorem hextetsToBytes_length (l : List Nat) :
    (hextetsToBytes l).length = 2 * l.length := by
  induction l with
  | nil => rfl
  | cons h t ih => simp [hextetsToBytes, ih]; omega

/-- `hextetsToBytes` produces byte values. -/
theorem hextetsToBytes_lt (l : List Nat) :
    ∀ x ∈ hextetsToBytes l, x < 256 := by
  induction l with
  | nil => simp [hextetsToBytes]
  | cons h t ih =>
    intro x hx
    simp only [hextetsToBytes, List.mem_cons] at hx
    rcases hx with rfl | rfl | hx2
    · exact Nat.mod_lt _ (by omega)
    · exact Nat.mod_lt _ (by omega)
    · exact ih x hx2

/-- A successful IPv6 group parse yields exactly eight groups. -/
theorem parseIpv6Groups_length (s : List Char) (gs : List Nat)
    (h : parseIpv6Groups s = some gs) : gs.length = 8 := by
  unfold parseIpv6Groups at h
  split at h
  · next l r =>
    split at h
    · exact absurd h (by simp)
    · split at h
      · next ls rs hls hrs =>
        split at h
        · next hle =>
          injection h with h2
          subst h2
          simp [List.length_append, List.length_replicate]
          omega
        · exact absurd h (by simp)
      · exact absurd h (by simp)
  · split at h
    · next gs0 hgs0 =>
      split at h
      · next hlen8 =>
        injection h with h2
        subst h2
        exact hlen8
      · exact absurd h (by simp)
    · exact absurd h (by simp)

/-- Every successful parse is well-formed: IPv4 octets and IPv6 bytes are
below 256, and an IPv6 address has sixteen bytes. -/
theorem parseIpAddr_wf (s : List Char) (ip : IpAddr)
    (h : parseIpAddr s = some ip) : ip.wf := by
  unfold parseIpAddr at h
  split at h
  · next ip0 hip0 =>
    injection h with h2
    subst h2
    exact parseIpv4_wf s ip0 hip0
  · next hv4 =>
    rw [Option.map_eq_some'] at h
    obtain ⟨gs, hgs, rfl⟩ := h
    refine ⟨?_, hextetsToBytes_lt gs⟩
    rw [hextetsToBytes_length, parseIpv6Groups_length s gs hgs]

/-- The IPv6 arm of `is_ip_in_cidr` computes `v6CodeMatch`. -/
theorem v6Arm_eq (a b : List Nat) (p : Nat) :
    (if ¬ a.take (p / 8) = b.take (p / 8) then (Except.ok false : Except MihomoError Bool)
    else if 0 < p % 8 ∧ p / 8 < 16 then
      if ¬ (a.getD (p / 8) 0 &&& rustU8Mask (p % 8))
          = (b.getD (p / 8) 0 &&& rustU8Mask (p % 8)) then Except.ok false
      else Except.ok true
    else Except.ok true)
    = Except.ok (v6CodeMatch a b p) := by
  by_cases h1 : a.take (p / 8) = b.take (p / 8)
  · rw [if_neg (not_not_intro h1)]
    by_cases h2 : 0 < p % 8 ∧ p / 8 < 16
    · rw [if_pos h2]
      by_cases h3 : (a.getD (p / 8) 0 &&& rustU8Mask (p % 8))
          = (b.getD (p / 8) 0 &&& rustU8Mask (p % 8))
      · rw [if_neg (not_not_intro h3)]
        unfold v6CodeMatch
        rw [if_pos h2, decide_eq_true h1, decide_eq_true h3]
        rfl
      · rw [if_pos h3]
        unfold v6CodeMatch
        rw [if_pos h2, decide_eq_true h1, decide_eq_false h3]
        rfl
    · rw [if_neg h2]
      unfold v6CodeMatch
      rw [if_neg h2, decide_eq_true h1]
      rfl
  · rw [if_pos h1]
    unfold v6CodeMatch
    rw [decide_eq_false h1]
    rfl

/-- Claim C8 (confirmed).  The IP-CIDR matcher: a host that does not
parse as an IP never matches; a host whose family differs from a
well-formed CIDR's family never matches; a v4 host against a v4 CIDR with
prefix length in `[0,32]` matches exactly when the top `p` bits of the
`u32` values agree (equality of the quotients by `2^(32-p)`), and a v6
host against a v6 CIDR with prefix length in `[0,128]` matches exactly
when the top `p` bits of the 128-bit big-endian byte values agree; the
spec's boundary examples hold. -/
theorem ip_cidr_match_spec :
    (∀ payload target, parseIpAddr target = none →
      match_ip_cidr payload target = .ok false) ∧
    (∀ payload target ipStr prefStr (p a b c d : Nat) (netB : List Nat),
      rustSplit '/' payload = [ipStr, prefStr] →
      parseIpAddr ipStr = some (.v6 netB) →
      rustParseU8 prefStr = some p →
      parseIpAddr target = some (.v4 a b c d) →
      match_ip_cidr payload target = .ok false) ∧
    (∀ payload target ipStr prefStr (p e f g h2 : Nat) (tB : List Nat),
      rustSplit '/' payload = [ipStr, prefStr] →
      parseIpAddr ipStr = some (.v4 e f g h2) →
      rustParseU8 prefStr = some p →
      parseIpAddr target = some (.v6 tB) →
      match_ip_cidr payload target = .ok false) ∧
    (∀ payload target ipStr prefStr (p a b c d e f g h2 : Nat),
      rustSplit '/' payload = [ipStr, prefStr] →
      parseIpAddr ipStr = some (.v4 e f g h2) →
      rustParseU8 prefStr = some p → p ≤ 32 →
      parseIpAddr target = some (.v4 a b c d) →
      match_ip_cidr payload target
        = .ok (decide (u32OfV4 a b c d / 2 ^ (32 - p)
            = u32OfV4 e f g h2 / 2 ^ (32 - p)))) ∧
    (∀ payload target ipStr prefStr (p : Nat) (tB netB : List Nat),
      rustSplit '/' payload = [ipStr, prefStr] →
      parseIpAddr ipStr = some (.v6 netB) →
      rustParseU8 prefStr = some p → p ≤ 128 →
      parseIpAddr target = some (.v6 tB) →
      match_ip_cidr payload target
        = .ok (decide (bytesToNat tB / 2 ^ (128 - p)
            = bytesToNat netB / 2 ^ (128 - p)))) ∧
    match_ip_cidr (chars "192.168.1.0/24") (chars "192.168.1.255") = .ok true ∧
    match_ip_cidr (chars "192.168.1.0/24") (chars "192.168.2.0") = .ok false ∧
    match_ip_cidr (chars "::/0") (chars "::1") = .ok true ∧
    match_ip_cidr (chars "::/0") (chars "192.168.1.1") = .ok false := by
  refine ⟨?_, ?_, ?_, ?_, ?_, rfl, rfl, rfl, rfl⟩
  · intro payload target hp
    simp [match_ip_cidr, hp]
  · intro payload target ipStr prefStr p a b c d netB hsplit hnet hp htarget
    simp [match_ip_cidr, htarget, is_ip_in_cidr, hsplit, hnet, hp]
  · intro payload target ipStr prefStr p e f g h2 tB hsplit hnet hp htarget
    simp [match_ip_cidr, htarget, is_ip_in_cidr, hsplit, hnet, hp]
  · intro payload target ipStr prefStr p a b c d e f g h2 hsplit hnet hp hp32 htarget
    have hwfT := parseIpAddr_wf target _ htarget
    have hwfN := parseIpAddr_wf ipStr _ hnet
    simp only [IpAddr.wf] at hwfT hwfN
    obtain ⟨ha, hb, hc, hd⟩ := hwfT
    obtain ⟨he, hf, hg, hh⟩ := hwfN
    simp only [match_ip_cidr, htarget, is_ip_in_cidr, hsplit, hnet, hp]
    rw [if_neg (by omega : ¬ 32 < p)]
    rw [rustU32Mask_eq p hp32]
    exact congrArg Except.ok ((decide_eq_decide).mpr
      (and_highMask_eq_iff 32 (32 - p) _ _ (by omega)
        (u32OfV4_lt a b c d ha hb hc hd) (u32OfV4_lt e f g h2 he hf hg hh)))
  · intro payload target ipStr prefStr p tB netB hsplit hnet hp hp128 htarget
    have hwfT := parseIpAddr_wf target _ htarget
    have hwfN := parseIpAddr_wf ipStr _ hnet
    simp only [IpAddr.wf] at hwfT hwfN
    obtain ⟨hlenT, hbT⟩ := hwfT
    obtain ⟨hlenN, hbN⟩ := hwfN
    have hlen : tB.length = netB.length := by omega
    simp only [match_ip_cidr, htarget, is_ip_in_cidr, hsplit, hnet, hp]
    rw [if_neg (by omega : ¬ 128 < p)]
    rw [v6Arm_eq]
    refine congrArg Except.ok ?_
    have hple : p ≤ 8 * tB.length := by omega
    have hshape := codeShape_eq_prefixBitsEq tB netB p hlen hple
    have hdiv := prefixBitsEq_iff_div tB netB p hlen hbT hbN hple
    rw [hlenT] at hdiv
    norm_num at hdiv
    simp only [v6CodeMatch]
    rw [show (16 : Nat) = tB.length from hlenT.symm]
    rw [hshape]
    exact bool_eq_decide_of_iff hdiv

/-- Witness for C8: the spec's `192.168.1.255 ∈ 192.168.1.0/24` boundary
example derived through the v4 characterization at concrete strings. -/
theorem ip_cidr_match_spec_witness :
    match_ip_cidr (chars "192.168.1.0/24") (chars "192.168.1.255")
      = .ok (decide (u32OfV4 192 168 1 255 / 2 ^ (32 - 24)
          = u32OfV4 192 168 1 0 / 2 ^ (32 - 24))) :=
  ip_cidr_match_spec.2.2.2.1 (chars "192.168.1.0/24") (chars "192.168.1.255")
    (chars "192.168.1.0") (chars "24") 24 192 168 1 255 192 168 1 0
    (by decide) (by decide) (by decide) (by decide) (by decide)

end MihomoRS
